import Mathlib

/-!
Verification of the bytecode assembler in `opy/compiler2/pyassem.py`.

The development shallowly embeds the data model and the operations of the
assembler: symbolic instructions, basic blocks, the flow-graph ordering pass
(`OrderBlocks`), the linearization pass (`FlattenGraph`), the operand
interning primitive (`_NameToIndex`) and the operand encoder, the byte
packer (`Assemble` / `Assembler.addCode`), the line-number-table encoder
(`Assembler.nextLine`), the stack-depth tracker (`StackDepthTracker.findDepth`),
and the code-object assembly steps of `PyFlowGraph` (`setFlag`, the cellvar
rearrangement of `MakeCodeObject`).

Python values carried as operands are embedded as `PyVal` (keeping the
runtime type tag, which the interner compares explicitly); fallible code
(Python exceptions) is embedded with `Option`; Python `while` loops are
embedded as fuel-indexed structural recursion, with theorems quantified over
the fuel.  Python sets of blocks are embedded as duplicate-free lists in
insertion order (the source makes set iteration deterministic by hashing
blocks to their creation counter).
-/

set_option autoImplicit false

/-- A Python value as carried by a symbolic operand.  The constructor is the
runtime type of the value: the interner distinguishes, e.g., the int `2`
from the long `2` even though they compare equal with the `==` of Python. -/
inductive PyVal where
  | int (n : Int)
  | long (n : Int)
  | bool (b : Bool)
  | str (s : String)
  | none
  deriving DecidableEq, Repr

/-- Numeric view of a value, used by the `==` of Python: ints, longs and
bools compare by their numeric value across types. -/
def pyNum : PyVal → Option Int
  | .int n => some n
  | .long n => some n
  | .bool b => some (if b then 1 else 0)
  | _ => Option.none

/-- Equality test of Python (`==`): cross-type on numbers, structural on the
rest.  This is value equality, NOT the type-strict equality the interner
uses. -/
def pyEq (a b : PyVal) : Bool :=
  match pyNum a, pyNum b with
  | some x, some y => x = y
  | _, _ =>
    match a, b with
    | .str s, .str t => s = t
    | .none, .none => true
    | _, _ => false

/-- Type tag of a value (the `type(...)` of Python). -/
def pyType : PyVal → Nat
  | .int _ => 0
  | .long _ => 1
  | .bool _ => 2
  | .str _ => 3
  | .none => 4

/-- One entry-matching test of `_NameToIndex`: `t == type(item) and item == name`. -/
def sameEntry (name item : PyVal) : Bool :=
  pyType name = pyType item && pyEq item name

/-- Embedding of `_NameToIndex(name, L)` (pyassem.py lines 17-32): scan the
list for an entry with the same runtime type and equal value; if found
return its index, else append `name` and return the old length.  The
returned pair is (index, updated list). -/
def nameToIndex (name : PyVal) (L : List PyVal) : Nat × List PyVal :=
  go L 0
where
  go : List PyVal → Nat → Nat × List PyVal
  | [], _ => (L.length, L ++ [name])
  | item :: rest, i =>
    if sameEntry name item then (i, L) else go rest (i + 1)

theorem pyEq_refl (v : PyVal) : pyEq v v = true := by
  cases v <;> simp [pyEq, pyNum]

theorem sameEntry_refl (v : PyVal) : sameEntry v v = true := by
  simp [sameEntry, pyEq_refl]

theorem nameToIndex_go_miss (name : PyVal) (L : List PyVal) :
    ∀ (l : List PyVal) (i : Nat),
      (∀ x ∈ l, sameEntry name x = false) →
      nameToIndex.go name L l i = (L.length, L ++ [name]) := by
  intro l
  induction l with
  | nil => intro i _; rfl
  | cons item rest ih =>
    intro i h
    have hitem := h item (by simp)
    simp only [nameToIndex.go, hitem]
    exact ih (i + 1) (fun x hx => h x (by simp [hx]))

theorem nameToIndex_go_hit (name : PyVal) (L : List PyVal) :
    ∀ (l : List PyVal) (i : Nat),
      (∃ x ∈ l, sameEntry name x = true) →
      (nameToIndex.go name L l i).2 = L := by
  intro l
  induction l with
  | nil => intro i h; exact absurd h (by simp)
  | cons item rest ih =>
    intro i h
    by_cases hitem : sameEntry name item = true
    · simp [nameToIndex.go, hitem]
    · simp only [nameToIndex.go, hitem, if_false]
      rcases h with ⟨x, hx, hsx⟩
      rcases List.mem_cons.mp hx with rfl | hx'
      · exact absurd hsx hitem
      · exact ih (i + 1) ⟨x, hx', hsx⟩

theorem nameToIndex_go_roundtrip (name : PyVal) (L : List PyVal) :
    ∀ (acc l : List PyVal),
      L = acc ++ l →
      ∃ v, (nameToIndex.go name L l acc.length).2.get?
             (nameToIndex.go name L l acc.length).1 = some v ∧
           sameEntry name v = true := by
  intro acc l
  induction l generalizing acc with
  | nil =>
    intro hL
    refine ⟨name, ?_, sameEntry_refl name⟩
    simp [nameToIndex.go, List.get?_append_right, hL]
  | cons item rest ih =>
    intro hL
    by_cases hitem : sameEntry name item = true
    · refine ⟨item, ?_, hitem⟩
      simp only [nameToIndex.go, hitem, if_true]
      rw [hL, List.get?_eq_getElem?, List.getElem?_append_right (Nat.le_refl acc.length)]
      simp
    · simp only [nameToIndex.go, hitem, if_false]
      have := ih (acc ++ [item]) (by simp [hL])
      simpa using this

/-- CLAIM C4 support: the index returned by the interner points at an entry
that matches the interned operand under the type-strict equality of the
compiler. -/
theorem nameToIndex_roundtrip (name : PyVal) (L : List PyVal) :
    ∃ v, (nameToIndex name L).2.get? (nameToIndex name L).1 = some v ∧
         sameEntry name v = true := by
  have := nameToIndex_go_roundtrip name L [] L rfl
  simpa [nameToIndex] using this

/-- CLAIM C4 support: interning appends exactly when no entry of the table
matches type-strictly; otherwise the table is unchanged. -/
theorem nameToIndex_append_iff (name : PyVal) (L : List PyVal) :
    ((∀ x ∈ L, sameEntry name x = false) →
       nameToIndex name L = (L.length, L ++ [name])) ∧
    ((∃ x ∈ L, sameEntry name x = true) → (nameToIndex name L).2 = L) :=
  ⟨fun h => by simpa [nameToIndex] using nameToIndex_go_miss name L L 0 h,
   fun h => by simpa [nameToIndex] using nameToIndex_go_hit name L L 0 h⟩

/-- CLAIM C4: for every symbolic operand interned during encoding the
intern-table entry at the returned index matches the operand type-strictly;
interning appends exactly when no existing entry matches both in type and
value; the int 2 and the long 2 intern to two distinct entries, while
interning the int 2 twice yields a single entry and the same index. -/
theorem intern_roundtrip_typestrict :
    (∀ name L, ∃ v,
        (nameToIndex name L).2.get? (nameToIndex name L).1 = some v ∧
        sameEntry name v = true) ∧
    (∀ name L,
        ((nameToIndex name L).2.length = L.length + 1 ↔
          ∀ x ∈ L, sameEntry name x = false)) ∧
    nameToIndex (.int 2) [] = (0, [.int 2]) ∧
    nameToIndex (.long 2) [.int 2] = (1, [.int 2, .long 2]) ∧
    nameToIndex (.int 2) [.int 2] = (0, [.int 2]) := by
  refine ⟨nameToIndex_roundtrip, fun name L => ?_, by decide, by decide, by decide⟩
  by_cases h : ∀ x ∈ L, sameEntry name x = false
  · rw [(nameToIndex_append_iff name L).1 h]
    simpa using h
  · push_neg at h
    rcases h with ⟨x, hx, hsx⟩
    have hx' : sameEntry name x = true := by
      cases hb : sameEntry name x
      · exact absurd hb hsx
      · rfl
    rw [(nameToIndex_append_iff name L).2 ⟨x, hx, hx'⟩]
    constructor
    · intro hlen; omega
    · intro hall; exact absurd (hall x hx) (by simp [hx'])

/-- Embedding of `ArgEncoder._convert_LOAD_NAME` (pyassem.py lines 505-508).
`klass` is the constructor argument of the encoder: `Option.none` when not
compiling a class body.  Returns the encoded index together with the updated
`names` and `varnames` tables. -/
def convert_LOAD_NAME (klass : Option String) (arg : PyVal)
    (names varnames : List PyVal) : Nat × List PyVal × List PyVal :=
  let varnames' := if klass.isNone then (nameToIndex arg varnames).2 else varnames
  ((nameToIndex arg names).1, ((nameToIndex arg names).2, varnames'))

/-- CLAIM C8: with `klass` set, `LOAD_NAME` interns in `names` only and
returns the `names` index, leaving `varnames` unchanged; with `klass` unset
it additionally interns in `varnames` while still returning the `names`
index.  The last clauses are the S4 scenario on fresh tables. -/
theorem convert_LOAD_NAME_klass :
    (∀ k arg names varnames,
        convert_LOAD_NAME (some k) arg names varnames =
          ((nameToIndex arg names).1, ((nameToIndex arg names).2, varnames))) ∧
    (∀ arg names varnames,
        convert_LOAD_NAME Option.none arg names varnames =
          ((nameToIndex arg names).1,
            ((nameToIndex arg names).2, (nameToIndex arg varnames).2))) ∧
    convert_LOAD_NAME (some "C") (.str "x") [] [] = (0, ([.str "x"], [])) ∧
    convert_LOAD_NAME Option.none (.str "x") [] [] =
      (0, ([.str "x"], [.str "x"])) := by
  refine ⟨fun k arg names varnames => rfl, fun arg names varnames => rfl,
    by decide, by decide⟩

/-- A symbolic instruction operand: a reference to a target block (by block
id), an integer, or any other Python value. -/
inductive Arg where
  | blk (b : Nat)
  | num (n : Int)
  | sym (v : PyVal)
  deriving DecidableEq, Repr

/-- A symbolic instruction: a 1-tuple (bare opcode) or a 2-tuple
(opcode, oparg) as emitted into a Block. -/
inductive Inst where
  | one (op : String)
  | two (op : String) (arg : Arg)
  deriving DecidableEq, Repr

/-- Opcode name of an instruction (`inst[0]`). -/
def Inst.opname : Inst → String
  | .one op => op
  | .two op _ => op

/-- The `Block._uncond_transfer` tuple (pyassem.py lines 303-305). -/
def uncondTransfer : List String :=
  ["RETURN_VALUE", "RAISE_VARARGS", "JUMP_ABSOLUTE", "JUMP_FORWARD",
   "CONTINUE_LOOP"]

/-- Embedding of `Block.has_unconditional_transfer` (pyassem.py lines
307-315).  The source unpacks `op, arg = self.insts[-1]`: an empty block
raises IndexError and a 1-field instruction raises ValueError, both caught
and turned into a falsy `None`; only for a 2-field last instruction is the
opcode compared against the terminal tuple. -/
def hasUncondTransfer (insts : List Inst) : Bool :=
  match insts.getLast? with
  | Option.none => false
  | some (.one _) => false
  | some (.two op _) => uncondTransfer.contains op

theorem list_contains_mem {α : Type} [BEq α] [LawfulBEq α]
    (l : List α) (x : α) : l.contains x = true ↔ x ∈ l := by
  simp [List.contains]

/-- CLAIM C3 counterexample: a block whose last instruction is the bare
1-field `RETURN_VALUE` has an opcode in the terminal set, yet
`has_unconditional_transfer` answers falsy (the tuple unpacking raises
ValueError, which the source catches and turns into `None`).  The claim
states the answer is true regardless of the field count, so it is false
here. -/
theorem hasUncondTransfer_one_field_cex :
    hasUncondTransfer [Inst.one "RETURN_VALUE"] = false ∧
    uncondTransfer.contains "RETURN_VALUE" = true := by
  exact ⟨rfl, by decide⟩

/-- CLAIM C3 amended: `has_unconditional_transfer()` is true iff the last
instruction of the block is a 2-field instruction whose opcode is in the
terminal set; a block ending in a 1-field instruction (even a bare
`RETURN_VALUE`) yields a falsy answer. -/
theorem hasUncondTransfer_two_field_only (insts : List Inst) :
    hasUncondTransfer insts = true ↔
      ∃ op arg, insts.getLast? = some (.two op arg) ∧ op ∈ uncondTransfer := by
  unfold hasUncondTransfer
  cases h : insts.getLast? with
  | none => simp
  | some inst =>
    cases inst with
    | one op => simp
    | two op arg =>
      rw [list_contains_mem]
      constructor
      · intro hmem; exact ⟨op, arg, rfl, hmem⟩
      · rintro ⟨op', arg', heq, hmem⟩
        cases heq; exact hmem

/-- Embedding of the CPython 2.7 string hash (`string_hash` in
Objects/stringobject.c), as the unsigned 64-bit machine word
(`size_t` view) that the hash tables index with: `x = s[0] << 7`, then
for every byte `x = (1000003 * x) ^ byte` with 64-bit wraparound, then
`x ^= len(s)`, the result -1 mapped to -2 (here: 2^64-1 to 2^64-2); the
empty string hashes to 0.  The names in this code path are ASCII
identifiers, so bytes coincide with the code points used here.  This
runtime behavior decides the iteration order of the string sets built by
the cellvar rearrangement of `MakeCodeObject`. -/
def strHash (s : String) : Nat :=
  match s.data with
  | [] => 0
  | c :: _ =>
    let x0 := (c.toNat <<< 7) % 2 ^ 64
    let x1 := s.data.foldl (fun x c => ((1000003 * x) % 2 ^ 64) ^^^ c.toNat) x0
    let x2 := x1 ^^^ (s.length % 2 ^ 64)
    if x2 = 2 ^ 64 - 1 then 2 ^ 64 - 2 else x2

/-- A CPython 2.7 set table of strings (Objects/setobject.c):
open-addressed slots, power-of-two size.  This code path only inserts, so
there are no dummy entries and fill = used. -/
abbrev SetTable := List (Option String)

/-- The fresh 8-slot table of `set()` (PySet_MINSIZE = 8). -/
def emptyTable : SetTable := List.replicate 8 Option.none

/-- The keys of a table in ascending slot order: the iteration order of
the set (`set_next` walks the slots from 0). -/
def setIter (t : SetTable) : List String := t.filterMap id

/-- Set membership (`set_contains_key`).  CPython probes for the key; for
tables built by this code path (insertions only, slots never cleared) the
probe finds a key exactly when some slot stores it, so membership in the
slot contents is the lookup result. -/
def setHas (t : SetTable) (k : String) : Bool := (setIter t).contains k

/-- The probe loop shared by `set_lookkey` and `set_insert_key`: start at
`hash & mask`, then repeatedly `i = i*5 + perturb + 1` (64-bit wraparound)
with `perturb >>= 5`, stopping at an empty slot or at the key; the slot
index is `i & mask`.  Fuel-indexed: the source loop always stops when the
table has an empty slot. -/
def setProbe (t : SetTable) (k : String) : Nat → Nat → Nat → Option Nat
  | 0, _, _ => Option.none
  | fuel + 1, i, perturb =>
    match t.getD (i % t.length) Option.none with
    | Option.none => some (i % t.length)
    | some k2 =>
      if k2 = k then some (i % t.length)
      else setProbe t k fuel ((5 * i + perturb + 1) % 2 ^ 64) (perturb >>> 5)

/-- The probe loop of `set_insert_clean`, used while resizing: the keys
being reinserted are distinct, so it stops only at an empty slot. -/
def setProbeClean (t : SetTable) : Nat → Nat → Nat → Option Nat
  | 0, _, _ => Option.none
  | fuel + 1, i, perturb =>
    match t.getD (i % t.length) Option.none with
    | Option.none => some (i % t.length)
    | some _ =>
      setProbeClean t fuel ((5 * i + perturb + 1) % 2 ^ 64) (perturb >>> 5)

/-- `set_insert_clean`: place a key into the first empty slot of its
probe sequence. -/
def setInsertClean (t : SetTable) (k : String) (fuel : Nat) :
    Option SetTable :=
  (setProbeClean t fuel (strHash k % t.length) (strHash k)).map
    (fun slot => t.set slot (some k))

/-- The reinsertion loop of `set_table_resize`, over the old keys in old
slot order. -/
def setInsertCleanAll : List String → SetTable → Nat → Option SetTable
  | [], t, _ => some t
  | k :: rest, t, fuel =>
    (setInsertClean t k fuel).bind (fun t2 => setInsertCleanAll rest t2 fuel)

/-- The `newsize` search of `set_table_resize`: the smallest power of two
greater than `minused`, starting from PySet_MINSIZE. -/
def newSizeFor : Nat → Nat → Nat → Nat
  | 0, _, cur => cur
  | fuel + 1, minused, cur =>
    if cur ≤ minused then newSizeFor fuel minused (cur * 2) else cur

/-- `set_table_resize`: allocate the bigger table and reinsert every key
in old slot order with `set_insert_clean`. -/
def setResize (t : SetTable) (fuel : Nat) : Option SetTable :=
  let used := (setIter t).length
  let minused := if 50000 < used then used * 2 else used * 4
  let newsize := newSizeFor 64 minused 8
  setInsertCleanAll (setIter t) (List.replicate newsize Option.none) fuel

/-- `set_add_key`: probe; a slot already holding the key leaves the set
unchanged; an empty slot receives the key, and the table is resized when
`fill*3 >= (mask+1)*2` holds afterwards (fill = used: no deletions
happen in this code path). -/
def setAddKey (t : SetTable) (k : String) (fuel : Nat) : Option SetTable :=
  match setProbe t k fuel (strHash k % t.length) (strHash k) with
  | Option.none => Option.none
  | some slot =>
    match t.getD slot Option.none with
    | some _ => some t
    | Option.none =>
      let t2 := t.set slot (some k)
      if t2.length * 2 ≤ (setIter t2).length * 3 then setResize t2 fuel
      else some t2

/-- `set(iterable)` over a list of strings: insert the elements in list
order (set_update_internal). -/
def setFromList : List String → SetTable → Nat → Option SetTable
  | [], t, _ => some t
  | k :: rest, t, fuel =>
    (setAddKey t k fuel).bind (fun t2 => setFromList rest t2 fuel)

/-- The loop of `set_difference`: iterate the left table in slot order,
inserting into a fresh set the keys the right set does not contain. -/
def setDiffGo (b : SetTable) (fuel : Nat) :
    List String → SetTable → Option SetTable
  | [], acc => some acc
  | k :: rest, acc =>
    if setHas b k then setDiffGo b fuel rest acc
    else (setAddKey acc k fuel).bind (fun acc2 => setDiffGo b fuel rest acc2)

/-- `set_difference` (the `lookup - set(varnames)` of MakeCodeObject). -/
def setDifference (a b : SetTable) (fuel : Nat) : Option SetTable :=
  setDiffGo b fuel (setIter a) emptyTable

/-- Embedding of the cellvar rearrangement step of
`PyFlowGraph.MakeCodeObject` (pyassem.py lines 434-440):
`lookup = set(self.cellvars)`; `remaining = lookup - set(self.varnames)`;
`self.cellvars = [n for n in self.varnames if n in lookup]`;
`self.cellvars.extend(remaining)` -- the extension iterates the Python
string set `remaining` in hash-table slot order, which need not be the
original cellvars order. -/
def rearrangeCellvars (cellvars varnames : List String) (fuel : Nat) :
    Option (List String) :=
  (setFromList cellvars emptyTable fuel).bind fun lookup =>
  (setFromList varnames emptyTable fuel).bind fun vnset =>
  (setDifference lookup vnset fuel).map fun remaining =>
    varnames.filter (fun n => setHas lookup n) ++ setIter remaining

/-- Embedding of `self.closure = self.cellvars + self.freevars`
(pyassem.py line 442), after the rearrangement. -/
def closureList (cellvars varnames freevars : List String) (fuel : Nat) :
    Option (List String) :=
  (rearrangeCellvars cellvars varnames fuel).map (fun c => c ++ freevars)

theorem mem_setIter (t : SetTable) (x : String) :
    x ∈ setIter t ↔ some x ∈ t := by
  simp [setIter, List.mem_filterMap]

theorem getD_lt (t : SetTable) (slot : Nat) (h : slot < t.length) :
    t.get? slot = some (t.getD slot Option.none) := by
  rw [List.getD]
  cases hg : t.get? slot with
  | none => rw [List.get?_eq_none] at hg; omega
  | some v => rfl

/-- A successful probe stops at a slot holding nothing or holding the
probed key. -/
theorem setProbe_content (t : SetTable) (k : String) (h0 : 0 < t.length) :
    ∀ (fuel i perturb slot : Nat),
      setProbe t k fuel i perturb = some slot →
      slot < t.length ∧
        (t.getD slot Option.none = Option.none ∨
         t.getD slot Option.none = some k) := by
  intro fuel
  induction fuel with
  | zero => intro i p slot h; cases h
  | succ fuel ih =>
    intro i p slot h
    unfold setProbe at h
    cases hc : t.getD (i % t.length) Option.none with
    | none =>
      rw [hc] at h
      cases h
      exact ⟨Nat.mod_lt i h0, Or.inl hc⟩
    | some k2 =>
      rw [hc] at h
      dsimp only at h
      by_cases hk : k2 = k
      · rw [if_pos hk] at h
        cases h
        exact ⟨Nat.mod_lt i h0, Or.inr (by rw [hc, hk])⟩
      · rw [if_neg hk] at h
        exact ih _ _ _ h

/-- A successful clean probe stops at an empty slot. -/
theorem setProbeClean_content (t : SetTable) (h0 : 0 < t.length) :
    ∀ (fuel i perturb slot : Nat),
      setProbeClean t fuel i perturb = some slot →
      slot < t.length ∧ t.getD slot Option.none = Option.none := by
  intro fuel
  induction fuel with
  | zero => intro i p slot h; cases h
  | succ fuel ih =>
    intro i p slot h
    unfold setProbeClean at h
    cases hc : t.getD (i % t.length) Option.none with
    | none =>
      rw [hc] at h
      cases h
      exact ⟨Nat.mod_lt i h0, hc⟩
    | some k2 =>
      rw [hc] at h
      dsimp only at h
      exact ih _ _ _ h

/-- Writing a key into an empty slot adds exactly that key to the slot
contents. -/
theorem keys_set_none :
    ∀ (t : SetTable) (slot : Nat) (k : String),
      t.get? slot = some Option.none →
      ((t.set slot (some k)).filterMap id).Perm (k :: t.filterMap id) := by
  intro t
  induction t with
  | nil => intro slot k h; cases h
  | cons hd rest ih =>
    intro slot k h
    cases slot with
    | zero =>
      cases h
      simp [List.set]
    | succ slot =>
      have h2 : rest.get? slot = some Option.none := h
      have hperm := ih slot k h2
      cases hd with
      | none =>
        simpa [List.set] using hperm
      | some y =>
        show (y :: (rest.set slot (some k)).filterMap id).Perm
          (k :: y :: rest.filterMap id)
        exact (hperm.cons y).trans (List.Perm.swap k y _)

theorem keys_set_none_iter (t : SetTable) (slot : Nat) (k : String)
    (h : t.get? slot = some Option.none) :
    (setIter (t.set slot (some k))).Perm (k :: setIter t) :=
  keys_set_none t slot k h

theorem setInsertClean_keys (t : SetTable) (k : String) (fuel : Nat)
    (t2 : SetTable) (h0 : 0 < t.length)
    (h : setInsertClean t k fuel = some t2) :
    (setIter t2).Perm (k :: setIter t) ∧ t2.length = t.length := by
  unfold setInsertClean at h
  cases hp : setProbeClean t fuel (strHash k % t.length) (strHash k) with
  | none => rw [hp] at h; cases h
  | some slot =>
    rw [hp] at h
    cases h
    rcases setProbeClean_content t h0 fuel _ _ slot hp with ⟨hlt, hc⟩
    have hget : t.get? slot = some Option.none := by
      rw [getD_lt t slot hlt, hc]
    exact ⟨keys_set_none t slot k hget, List.length_set t slot (some k)⟩

theorem setInsertCleanAll_keys :
    ∀ (l : List String) (t : SetTable) (fuel : Nat) (t2 : SetTable),
      0 < t.length → setInsertCleanAll l t fuel = some t2 →
      (setIter t2).Perm (l ++ setIter t) ∧ t2.length = t.length := by
  intro l
  induction l with
  | nil =>
    intro t fuel t2 h0 h
    cases h
    exact ⟨List.Perm.refl _, rfl⟩
  | cons k rest ih =>
    intro t fuel t2 h0 h
    unfold setInsertCleanAll at h
    cases hi : setInsertClean t k fuel with
    | none => rw [hi] at h; cases h
    | some t1 =>
      rw [hi] at h
      rcases setInsertClean_keys t k fuel t1 h0 hi with ⟨hperm1, hlen1⟩
      rcases ih t1 fuel t2 (by omega) h with ⟨hperm2, hlen2⟩
      refine ⟨?_, by omega⟩
      exact hperm2.trans ((hperm1.append_left rest).trans List.perm_middle)

theorem setIter_replicate_none (n : Nat) :
    setIter (List.replicate n Option.none) = [] := by
  induction n with
  | zero => rfl
  | succ n ih => simpa [setIter, List.replicate] using ih

theorem newSizeFor_ge :
    ∀ (fuel minused cur : Nat), cur ≤ newSizeFor fuel minused cur := by
  intro fuel
  induction fuel with
  | zero => intro m cur; exact Nat.le_refl cur
  | succ fuel ih =>
    intro m cur
    unfold newSizeFor
    by_cases hc : cur ≤ m
    · rw [if_pos hc]
      exact le_trans (by omega) (ih m (cur * 2))
    · rw [if_neg hc]

theorem setResize_keys (t : SetTable) (fuel : Nat) (t2 : SetTable)
    (h : setResize t fuel = some t2) :
    (setIter t2).Perm (setIter t) ∧ 0 < t2.length := by
  unfold setResize at h
  have h8 : (0 : Nat) < newSizeFor 64
      (if 50000 < (setIter t).length then (setIter t).length * 2
       else (setIter t).length * 4) 8 :=
    lt_of_lt_of_le (by omega) (newSizeFor_ge 64 _ 8)
  rcases setInsertCleanAll_keys (setIter t) _ fuel t2
    (by simpa using h8) h with ⟨hperm, hlen⟩
  constructor
  · simpa [setIter_replicate_none] using hperm
  · rw [hlen]; simpa using h8

/-- Successful insertion: the keys afterwards are the old keys plus the
inserted one; the table stays nonempty. -/
theorem setAddKey_keys (t : SetTable) (k : String) (fuel : Nat)
    (t2 : SetTable) (h0 : 0 < t.length) (h : setAddKey t k fuel = some t2) :
    (∀ x, x ∈ setIter t2 ↔ (x = k ∨ x ∈ setIter t)) ∧ 0 < t2.length := by
  unfold setAddKey at h
  cases hp : setProbe t k fuel (strHash k % t.length) (strHash k) with
  | none => rw [hp] at h; cases h
  | some slot =>
    rw [hp] at h
    dsimp only at h
    rcases setProbe_content t k h0 fuel _ _ slot hp with ⟨hlt, hcont⟩
    cases hc : t.getD slot Option.none with
    | some k2 =>
      rw [hc] at h
      cases h
      have hk2 : k2 = k := by
        rcases hcont with hnone | hsome
        · rw [hc] at hnone; cases hnone
        · rw [hc] at hsome; exact Option.some.inj hsome
      subst hk2
      have hkmem : k2 ∈ setIter t := by
        rw [mem_setIter]
        have := getD_lt t slot hlt
        rw [hc] at this
        exact List.get?_mem this
      constructor
      · intro x
        constructor
        · exact Or.inr
        · rintro (rfl | hx)
          · exact hkmem
          · exact hx
      · exact h0
    | none =>
      rw [hc] at h
      have hget : t.get? slot = some Option.none := by
        rw [getD_lt t slot hlt, hc]
      have hperm1 := keys_set_none_iter t slot k hget
      have hlen1 : (t.set slot (some k)).length = t.length :=
        List.length_set t slot (some k)
      by_cases hgrow : (t.set slot (some k)).length * 2 ≤
          (setIter (t.set slot (some k))).length * 3
      · rw [if_pos hgrow] at h
        rcases setResize_keys _ fuel t2 h with ⟨hperm2, hpos⟩
        refine ⟨fun x => ?_, hpos⟩
        rw [hperm2.mem_iff, hperm1.mem_iff]
        simp
      · rw [if_neg hgrow] at h
        cases h
        refine ⟨fun x => ?_, by omega⟩
        rw [hperm1.mem_iff]
        simp

/-- Inserting a key not yet present permutes the keys to the old keys
with the new one in front (no table invariant needed: the probe cannot
stop at a slot holding the key, so it fills an empty slot). -/
theorem setAddKey_keys_new (t : SetTable) (k : String) (fuel : Nat)
    (t2 : SetTable) (h0 : 0 < t.length) (hk : k ∉ setIter t)
    (h : setAddKey t k fuel = some t2) :
    (setIter t2).Perm (k :: setIter t) ∧ 0 < t2.length := by
  unfold setAddKey at h
  cases hp : setProbe t k fuel (strHash k % t.length) (strHash k) with
  | none => rw [hp] at h; cases h
  | some slot =>
    rw [hp] at h
    dsimp only at h
    rcases setProbe_content t k h0 fuel _ _ slot hp with ⟨hlt, hcont⟩
    cases hc : t.getD slot Option.none with
    | some k2 =>
      exfalso
      have hk2 : k2 = k := by
        rcases hcont with hnone | hsome
        · rw [hc] at hnone; cases hnone
        · rw [hc] at hsome; exact Option.some.inj hsome
      subst hk2
      refine hk ?_
      rw [mem_setIter]
      have := getD_lt t slot hlt
      rw [hc] at this
      exact List.get?_mem this
    | none =>
      rw [hc] at h
      have hget : t.get? slot = some Option.none := by
        rw [getD_lt t slot hlt, hc]
      have hperm1 := keys_set_none_iter t slot k hget
      have hlen1 : (t.set slot (some k)).length = t.length :=
        List.length_set t slot (some k)
      by_cases hgrow : (t.set slot (some k)).length * 2 ≤
          (setIter (t.set slot (some k))).length * 3
      · rw [if_pos hgrow] at h
        rcases setResize_keys _ fuel t2 h with ⟨hperm2, hpos⟩
        exact ⟨hperm2.trans hperm1, hpos⟩
      · rw [if_neg hgrow] at h
        cases h
        exact ⟨hperm1, by omega⟩

theorem setFromList_keys :
    ∀ (l : List String) (t : SetTable) (fuel : Nat) (t2 : SetTable),
      0 < t.length → setFromList l t fuel = some t2 →
      (∀ x, x ∈ setIter t2 ↔ (x ∈ l ∨ x ∈ setIter t)) ∧ 0 < t2.length := by
  intro l
  induction l with
  | nil =>
    intro t fuel t2 h0 h
    cases h
    exact ⟨fun x => by simp, h0⟩
  | cons k rest ih =>
    intro t fuel t2 h0 h
    unfold setFromList at h
    cases ha : setAddKey t k fuel with
    | none => rw [ha] at h; cases h
    | some t1 =>
      rw [ha] at h
      rcases setAddKey_keys t k fuel t1 h0 ha with ⟨hmem1, hpos1⟩
      rcases ih t1 fuel t2 hpos1 h with ⟨hmem2, hpos2⟩
      refine ⟨fun x => ?_, hpos2⟩
      rw [hmem2 x, hmem1 x]
      simp [or_assoc]
      tauto

theorem setFromList_nodup :
    ∀ (l : List String) (t : SetTable) (fuel : Nat) (t2 : SetTable),
      0 < t.length → l.Nodup → (setIter t).Nodup →
      (∀ x ∈ l, x ∉ setIter t) →
      setFromList l t fuel = some t2 → (setIter t2).Nodup := by
  intro l
  induction l with
  | nil =>
    intro t fuel t2 h0 _ hnd _ h
    cases h
    exact hnd
  | cons k rest ih =>
    intro t fuel t2 h0 hltnd hnd hdisj h
    unfold setFromList at h
    cases ha : setAddKey t k fuel with
    | none => rw [ha] at h; cases h
    | some t1 =>
      rw [ha] at h
      have hknot : k ∉ setIter t := hdisj k (by simp)
      rcases setAddKey_keys_new t k fuel t1 h0 hknot ha with ⟨hperm1, hpos1⟩
      rcases List.nodup_cons.mp hltnd with ⟨hkrest, hrestnd⟩
      refine ih t1 fuel t2 hpos1 hrestnd ?_ ?_ h
      · exact hperm1.nodup_iff.mpr (List.nodup_cons.mpr ⟨hknot, hnd⟩)
      · intro x hx hx1
        rw [hperm1.mem_iff] at hx1
        rcases List.mem_cons.mp hx1 with rfl | hx1t
        · exact hkrest hx
        · exact hdisj x (by simp [hx]) hx1t

theorem setDiffGo_keys (b : SetTable) (fuel : Nat) :
    ∀ (l : List String) (acc : SetTable) (out : SetTable),
      0 < acc.length → setDiffGo b fuel l acc = some out →
      (∀ x, x ∈ setIter out ↔
        ((x ∈ l ∧ setHas b x = false) ∨ x ∈ setIter acc)) ∧
      0 < out.length := by
  intro l
  induction l with
  | nil =>
    intro acc out h0 h
    cases h
    exact ⟨fun x => by simp, h0⟩
  | cons k rest ih =>
    intro acc out h0 h
    unfold setDiffGo at h
    by_cases hb : setHas b k = true
    · rw [if_pos hb] at h
      rcases ih acc out h0 h with ⟨hmem, hpos⟩
      refine ⟨fun x => ?_, hpos⟩
      rw [hmem x]
      constructor
      · rintro (⟨hx, hbx⟩ | hx)
        · exact Or.inl ⟨by simp [hx], hbx⟩
        · exact Or.inr hx
      · rintro (⟨hx, hbx⟩ | hx)
        · rcases List.mem_cons.mp hx with rfl | hx2
          · rw [hb] at hbx; cases hbx
          · exact Or.inl ⟨hx2, hbx⟩
        · exact Or.inr hx
    · rw [if_neg hb] at h
      rw [Bool.not_eq_true] at hb
      cases ha : setAddKey acc k fuel with
      | none => rw [ha] at h; cases h
      | some acc2 =>
        rw [ha] at h
        rcases setAddKey_keys acc k fuel acc2 h0 ha with ⟨hmem1, hpos1⟩
        rcases ih acc2 out hpos1 h with ⟨hmem2, hpos2⟩
        refine ⟨fun x => ?_, hpos2⟩
        rw [hmem2 x, hmem1 x]
        constructor
        · rintro (⟨hx, hbx⟩ | (rfl | hx))
          · exact Or.inl ⟨by simp [hx], hbx⟩
          · exact Or.inl ⟨by simp, hb⟩
          · exact Or.inr hx
        · rintro (⟨hx, hbx⟩ | hx)
          · rcases List.mem_cons.mp hx with rfl | hx2
            · exact Or.inr (Or.inl rfl)
            · exact Or.inl ⟨hx2, hbx⟩
          · exact Or.inr (Or.inr hx)

theorem setDiffGo_nodup (b : SetTable) (fuel : Nat) :
    ∀ (l : List String) (acc : SetTable) (out : SetTable),
      0 < acc.length → l.Nodup → (setIter acc).Nodup →
      (∀ x ∈ l, x ∉ setIter acc) →
      setDiffGo b fuel l acc = some out → (setIter out).Nodup := by
  intro l
  induction l with
  | nil =>
    intro acc out h0 _ hnd _ h
    cases h
    exact hnd
  | cons k rest ih =>
    intro acc out h0 hlnd hnd hdisj h
    rcases List.nodup_cons.mp hlnd with ⟨hkrest, hrestnd⟩
    unfold setDiffGo at h
    by_cases hb : setHas b k = true
    · rw [if_pos hb] at h
      exact ih acc out h0 hrestnd hnd (fun x hx => hdisj x (by simp [hx])) h
    · rw [if_neg hb] at h
      cases ha : setAddKey acc k fuel with
      | none => rw [ha] at h; cases h
      | some acc2 =>
        rw [ha] at h
        have hknot : k ∉ setIter acc := hdisj k (by simp)
        rcases setAddKey_keys_new acc k fuel acc2 h0 hknot ha with
          ⟨hperm, hpos⟩
        refine ih acc2 out hpos hrestnd ?_ ?_ h
        · exact hperm.nodup_iff.mpr (List.nodup_cons.mpr ⟨hknot, hnd⟩)
        · intro x hx hx2
          rw [hperm.mem_iff] at hx2
          rcases List.mem_cons.mp hx2 with rfl | hx2t
          · exact hkrest hx
          · exact hdisj x (by simp [hx]) hx2t

theorem setHas_iff (t : SetTable) (x : String) :
    setHas t x = true ↔ x ∈ setIter t :=
  list_contains_mem (setIter t) x

/-- CLAIM C7 counterexample: with `cellvars = [b, a]` and `varnames = []`
every cellvar remains, and the code extends with the string set
`remaining` in hash-table slot order -- hash("a") = 12416037344 lands in
slot 0 and hash("b") = 12544037731 in slot 3 of the 8-slot table -- so
the result is `[a, b]`, not the original cellvars order `[b, a]` the
claim requires.  With `cellvars = [a]` and `varnames = [a, a]` the result
is `[a, a]`, not the single original cellvars entry `[a]`, because the
code filters `varnames`, not `cellvars`. -/
theorem rearrangeCellvars_order_cex :
    rearrangeCellvars ["b", "a"] [] 100 = some ["a", "b"] ∧
    rearrangeCellvars ["b", "a"] [] 100 ≠ some ["b", "a"] ∧
    rearrangeCellvars ["a"] ["a", "a"] 100 = some ["a", "a"] ∧
    rearrangeCellvars ["a"] ["a", "a"] 100 ≠ some ["a"] := by
  refine ⟨by decide, by decide, by decide, by decide⟩

/-- CLAIM C7 amended: after the rearrangement step, `cellvars` is the
`varnames` entries that occur in the original `cellvars`, in `varnames`
order and with the multiplicity of `varnames`, followed by a trailing
segment holding exactly the original `cellvars` entries that do not occur
in `varnames` (each exactly once when `cellvars` is duplicate-free), in
the hash-table iteration order of the CPython 2.7 string set `remaining`
-- not necessarily the original cellvars order; `closure` is the
rearranged `cellvars` followed by `freevars`.  The last clauses are the
S6 scenario, where the single remaining entry makes the set order
immaterial. -/
theorem rearrangeCellvars_hash_model :
    (∀ (cv vn : List String) (fuel : Nat) (out : List String),
        rearrangeCellvars cv vn fuel = some out →
        ∃ r, out = vn.filter (fun n => cv.contains n) ++ r ∧
          (∀ x, x ∈ r ↔ (x ∈ cv ∧ x ∉ vn)) ∧
          (cv.Nodup → r.Nodup)) ∧
    (∀ (cv vn fv : List String) (fuel : Nat),
        closureList cv vn fv fuel =
          (rearrangeCellvars cv vn fuel).map (fun c => c ++ fv)) ∧
    rearrangeCellvars ["c", "a", "x"] ["a", "b", "c"] 100 =
      some ["a", "c", "x"] ∧
    closureList ["c", "a", "x"] ["a", "b", "c"] ["f"] 100 =
      some ["a", "c", "x", "f"] := by
  refine ⟨?_, fun _ _ _ _ => rfl, by decide, by decide⟩
  intro cv vn fuel out h
  unfold rearrangeCellvars at h
  cases hlk : setFromList cv emptyTable fuel with
  | none => rw [hlk] at h; cases h
  | some lookup =>
    rw [hlk] at h
    cases hvs : setFromList vn emptyTable fuel with
    | none => rw [hvs] at h; cases h
    | some vnset =>
      rw [hvs] at h
      dsimp only [Option.bind] at h
      cases hdf : setDifference lookup vnset fuel with
      | none => rw [hdf] at h; cases h
      | some remaining =>
        rw [hdf] at h
        have hout : out = vn.filter (fun n => setHas lookup n) ++
            setIter remaining := (Option.some.inj h).symm
        have h8 : (0 : Nat) < emptyTable.length := by decide
        rcases setFromList_keys cv emptyTable fuel lookup h8 hlk with
          ⟨hlkmem, hlkpos⟩
        rcases setFromList_keys vn emptyTable fuel vnset h8 hvs with
          ⟨hvsmem, _⟩
        have hempty : setIter emptyTable = [] := rfl
        have hlkmem2 : ∀ x, x ∈ setIter lookup ↔ x ∈ cv := by
          intro x
          rw [hlkmem x, hempty]
          simp
        have hvsmem2 : ∀ x, x ∈ setIter vnset ↔ x ∈ vn := by
          intro x
          rw [hvsmem x, hempty]
          simp
        rcases setDiffGo_keys vnset fuel (setIter lookup) emptyTable
          remaining (by decide) hdf with ⟨hdmem, _⟩
        refine ⟨setIter remaining, ?_, ?_, ?_⟩
        · rw [hout]
          congr 1
          apply List.filter_congr
          intro x _
          cases hcv : cv.contains x with
          | true =>
            exact (setHas_iff lookup x).mpr
              ((hlkmem2 x).mpr ((list_contains_mem cv x).mp hcv))
          | false =>
            cases hsh : setHas lookup x with
            | false => rfl
            | true =>
              have hx : x ∈ cv :=
                (hlkmem2 x).mp ((setHas_iff lookup x).mp hsh)
              rw [(list_contains_mem cv x).mpr hx] at hcv
              cases hcv
        · intro x
          rw [hdmem x, hempty]
          simp only [List.not_mem_nil, or_false]
          constructor
          · rintro ⟨hx, hbx⟩
            refine ⟨(hlkmem2 x).mp hx, fun hxv => ?_⟩
            have hsh : setHas vnset x = true :=
              (setHas_iff vnset x).mpr ((hvsmem2 x).mpr hxv)
            rw [hsh] at hbx
            cases hbx
          · rintro ⟨hx, hxv⟩
            refine ⟨(hlkmem2 x).mpr hx, ?_⟩
            cases hbx : setHas vnset x with
            | false => rfl
            | true =>
              exact absurd ((hvsmem2 x).mp ((setHas_iff vnset x).mp hbx)) hxv
        · intro hnd
          have hlknd : (setIter lookup).Nodup := by
            refine setFromList_nodup cv emptyTable fuel lookup h8 hnd ?_ ?_ hlk
            · rw [hempty]; exact List.nodup_nil
            · intro x _ hmem
              rw [hempty] at hmem
              cases hmem
          refine setDiffGo_nodup vnset fuel (setIter lookup) emptyTable
            remaining (by decide) hlknd ?_ ?_ hdf
          · rw [hempty]; exact List.nodup_nil
          · intro x _ hmem
            rw [hempty] at hmem
            cases hmem

/-- CLAIM C7 witness: the amended structure theorem applied at the S6
input. -/
theorem rearrangeCellvars_hash_model_w :
    ∃ r, (["a", "c", "x"] : List String) =
        (["a", "b", "c"] : List String).filter
          (fun n => (["c", "a", "x"] : List String).contains n) ++ r ∧
      (∀ x, x ∈ r ↔
        (x ∈ (["c", "a", "x"] : List String) ∧
         x ∉ (["a", "b", "c"] : List String))) ∧
      ((["c", "a", "x"] : List String).Nodup → r.Nodup) :=
  rearrangeCellvars_hash_model.1 ["c", "a", "x"] ["a", "b", "c"] 100
    ["a", "c", "x"] (by decide)

/-- Modelled from the spec: the flag constants imported from
`compiler2/consts.py`, a file of this repository that is not under `src/`.
Section 6 of the spec fixes the bit values `OPTIMIZED=1`, `NEWLOCALS=2`,
`VARARGS=4`, `VARKEYWORDS=8`. -/
def CO_OPTIMIZED : Nat := 1

/-- Modelled from the spec: see `CO_OPTIMIZED`. -/
def CO_NEWLOCALS : Nat := 2

/-- Modelled from the spec: see `CO_OPTIMIZED`. -/
def CO_VARARGS : Nat := 4

/-- Modelled from the spec: see `CO_OPTIMIZED`. -/
def CO_VARKEYWORDS : Nat := 8

/-- The fields of `PyFlowGraph` that `setFlag` can see (pyassem.py lines
361-393).  `argcount` is an int of Python, hence `Int` here (it is
decremented and may in principle go negative). -/
structure PyFlowGraph where
  name : String
  filename : String
  docstring : PyVal
  klass : Option String
  flags : Nat
  consts : List PyVal
  names : List PyVal
  freevars : List String
  cellvars : List String
  closure : List String
  varnames : List String
  argcount : Int
  deriving DecidableEq, Repr

/-- Embedding of `PyFlowGraph.setFlag` (pyassem.py lines 414-417): OR the
flag into `flags`; if the flag argument equals `CO_VARARGS`, decrement
`argcount`. -/
def setFlag (g : PyFlowGraph) (flag : Nat) : PyFlowGraph :=
  { g with
    flags := g.flags ||| flag,
    argcount := if flag = CO_VARARGS then g.argcount - 1 else g.argcount }

/-- CLAIM C10: `setFlag` ORs the given flag into `flags` and changes no
other field except `argcount`; it decrements `argcount` by exactly 1 when
called with `CO_VARARGS` (even when that bit is already set, as the
repeated-call clause shows) and leaves `argcount` unchanged for any other
flag value. -/
theorem setFlag_spec :
    (∀ g flag, (setFlag g flag).flags = g.flags ||| flag ∧
        (setFlag g flag).name = g.name ∧
        (setFlag g flag).filename = g.filename ∧
        (setFlag g flag).docstring = g.docstring ∧
        (setFlag g flag).klass = g.klass ∧
        (setFlag g flag).consts = g.consts ∧
        (setFlag g flag).names = g.names ∧
        (setFlag g flag).freevars = g.freevars ∧
        (setFlag g flag).cellvars = g.cellvars ∧
        (setFlag g flag).closure = g.closure ∧
        (setFlag g flag).varnames = g.varnames) ∧
    (∀ g, (setFlag g CO_VARARGS).argcount = g.argcount - 1) ∧
    (∀ g, (setFlag (setFlag g CO_VARARGS) CO_VARARGS).argcount =
        g.argcount - 2) ∧
    (∀ g flag, flag ≠ CO_VARARGS → (setFlag g flag).argcount = g.argcount) := by
  refine ⟨fun g flag => ?_, fun g => ?_, fun g => ?_, fun g flag h => ?_⟩
  · exact ⟨rfl, rfl, rfl, rfl, rfl, rfl, rfl, rfl, rfl, rfl, rfl⟩
  · show (if CO_VARARGS = CO_VARARGS then g.argcount - 1 else g.argcount) =
      g.argcount - 1
    rw [if_pos rfl]
  · show (if CO_VARARGS = CO_VARARGS then
        (setFlag g CO_VARARGS).argcount - 1
      else (setFlag g CO_VARARGS).argcount) = g.argcount - 2
    rw [if_pos rfl]
    show (if CO_VARARGS = CO_VARARGS then g.argcount - 1 else g.argcount) - 1 =
      g.argcount - 2
    rw [if_pos rfl]
    ring
  · show (if flag = CO_VARARGS then g.argcount - 1 else g.argcount) = g.argcount
    rw [if_neg h]

/-- A sample flow-graph record used to instantiate theorems about
`PyFlowGraph` at concrete inputs. -/
def sampleGraph : PyFlowGraph :=
  { name := "f", filename := "t.py", docstring := PyVal.none,
    klass := Option.none, flags := 0, consts := [], names := [],
    freevars := [], cellvars := [], closure := [], varnames := ["a"],
    argcount := 1 }

/-- CLAIM C10 witness: `setFlag` at concrete inputs. -/
theorem setFlag_spec_w :
    (setFlag sampleGraph CO_VARARGS).argcount = 0 ∧
    (setFlag sampleGraph CO_NEWLOCALS).argcount = 1 ∧
    (setFlag sampleGraph CO_NEWLOCALS).flags = 2 := by
  exact ⟨(setFlag_spec.2.1 sampleGraph).trans (by decide),
    (setFlag_spec.2.2.2 sampleGraph CO_NEWLOCALS (by decide)).trans (by decide),
    ((setFlag_spec.1 sampleGraph CO_NEWLOCALS).1).trans (by decide)⟩

/-- The mutable state of `Assembler` (pyassem.py lines 567-573): the code
bytes emitted so far, the code offset, and the line-table state.  Code
bytes are stored as `Nat` values in `[0, 255]` (the source stores
`chr(arg)` characters). -/
structure AState where
  code : List Nat
  codeOffset : Nat
  firstline : Int
  lastline : Int
  lastoff : Nat
  lnotab : List Int
  deriving DecidableEq, Repr

/-- The state of a fresh `Assembler()`. -/
def initialAssembler : AState :=
  { code := [], codeOffset := 0, firstline := 0, lastline := 0,
    lastoff := 0, lnotab := [] }

/-- The `chr(arg)` conversions of `Assembler.addCode`: each argument must
be in `[0, 255]` or `chr` raises ValueError.  `Option.none` models the
exception aborting the assembly. -/
def chrList : List Int → Option (List Nat)
  | [] => some []
  | a :: rest =>
    if 0 ≤ a ∧ a ≤ 255 then (chrList rest).map (fun bs => a.toNat :: bs)
    else Option.none

/-- Embedding of `Assembler.addCode` (pyassem.py lines 575-578): append one
byte per argument and advance the offset by the argument count. -/
def addCode (st : AState) (args : List Int) : Option AState :=
  match chrList args with
  | some bytes => some { st with code := st.code ++ bytes,
                                 codeOffset := st.codeOffset + args.length }
  | Option.none => Option.none

/-- The first `while` loop of `Assembler.nextLine`
(`while addr > 255: push(255); push(0); addr -= 255`), as fuel-indexed
recursion; the wrapper below supplies adequate fuel. -/
def lineTabAddrF : Nat → List Int → Int → List Int × Int
  | 0, l, a => (l, a)
  | fuel + 1, l, a =>
    if 255 < a then lineTabAddrF fuel (l ++ [255, 0]) (a - 255) else (l, a)

/-- The first `while` loop of `nextLine`. -/
def lineTabAddr (l : List Int) (a : Int) : List Int × Int :=
  lineTabAddrF a.toNat l a

/-- The second `while` loop of `Assembler.nextLine`
(`while line > 255: push(addr); push(255); line -= 255; addr = 0`). -/
def lineTabLineF : Nat → List Int → Int → Int → List Int × Int × Int
  | 0, l, a, line => (l, a, line)
  | fuel + 1, l, a, line =>
    if 255 < line then lineTabLineF fuel (l ++ [a, 255]) 0 (line - 255)
    else (l, a, line)

/-- The second `while` loop of `nextLine`. -/
def lineTabLine (l : List Int) (a line : Int) : List Int × Int × Int :=
  lineTabLineF line.toNat l a line

/-- The whole lnotab-extension step of `nextLine`: both loops followed by
the final `if addr > 0 or line > 0: push(addr); push(line)`. -/
def lnotabAppend (l : List Int) (addr line : Int) : List Int :=
  let r1 := lineTabAddr l addr
  let r2 := lineTabLine r1.1 r1.2 line
  if 0 < r2.2.1 ∨ 0 < r2.2.2 then r2.1 ++ [r2.2.1, r2.2.2] else r2.1

/-- Embedding of `Assembler.nextLine` (pyassem.py lines 580-610): the first
`SET_LINENO` only records the first line; later ones with a nonnegative
line delta extend the lnotab and update `lastline`/`lastoff` (a negative
delta is silently skipped, leaving the whole state unchanged). -/
def nextLine (st : AState) (lineno : Int) : AState :=
  if st.firstline = 0 then
    { st with firstline := lineno, lastline := lineno }
  else
    let addr : Int := (st.codeOffset : Int) - (st.lastoff : Int)
    let line : Int := lineno - st.lastline
    if 0 ≤ line then
      { st with lnotab := lnotabAppend st.lnotab addr line,
                lastline := lineno, lastoff := st.codeOffset }
    else st

theorem lineTabAddrF_stop (fuel : Nat) (l : List Int) (a : Int)
    (h : ¬ 255 < a) : lineTabAddrF fuel l a = (l, a) := by
  cases fuel <;> simp [lineTabAddrF, h]

theorem lineTabAddrF_adequate :
    ∀ (f1 : Nat), ∀ (f2 : Nat) (l : List Int) (a : Int),
      a.toNat ≤ f1 → a.toNat ≤ f2 →
      lineTabAddrF f1 l a = lineTabAddrF f2 l a := by
  intro f1
  induction f1 with
  | zero =>
    intro f2 l a h1 _
    have : ¬ 255 < a := by omega
    rw [lineTabAddrF_stop 0 l a this, lineTabAddrF_stop f2 l a this]
  | succ f1 ih =>
    intro f2 l a h1 h2
    by_cases ha : 255 < a
    · have hn : a.toNat ≠ 0 := by omega
      have hf2 : ∃ k, f2 = k + 1 := ⟨f2 - 1, by omega⟩
      rcases hf2 with ⟨k, rfl⟩
      show (if 255 < a then lineTabAddrF f1 (l ++ [255, 0]) (a - 255)
            else (l, a)) =
        (if 255 < a then lineTabAddrF k (l ++ [255, 0]) (a - 255) else (l, a))
      rw [if_pos ha, if_pos ha]
      exact ih k (l ++ [255, 0]) (a - 255) (by omega) (by omega)
    · rw [lineTabAddrF_stop _ l a ha, lineTabAddrF_stop f2 l a ha]

/-- One-step unfolding of the first `while` loop. -/
theorem lineTabAddr_step (l : List Int) (a : Int) :
    lineTabAddr l a =
      if 255 < a then lineTabAddr (l ++ [255, 0]) (a - 255) else (l, a) := by
  by_cases ha : 255 < a
  · rw [if_pos ha]
    show lineTabAddrF a.toNat l a = lineTabAddrF (a - 255).toNat _ _
    have hk : ∃ k, a.toNat = k + 1 := ⟨a.toNat - 1, by omega⟩
    rcases hk with ⟨k, hk⟩
    rw [hk]
    show (if 255 < a then lineTabAddrF k (l ++ [255, 0]) (a - 255)
          else (l, a)) = _
    rw [if_pos ha]
    exact lineTabAddrF_adequate k _ _ _ (by omega) (by omega)
  · rw [if_neg ha]
    exact lineTabAddrF_stop _ l a ha

theorem lineTabLineF_stop (fuel : Nat) (l : List Int) (a line : Int)
    (h : ¬ 255 < line) : lineTabLineF fuel l a line = (l, a, line) := by
  cases fuel <;> simp [lineTabLineF, h]

theorem lineTabLineF_adequate :
    ∀ (f1 : Nat), ∀ (f2 : Nat) (l : List Int) (a line : Int),
      line.toNat ≤ f1 → line.toNat ≤ f2 →
      lineTabLineF f1 l a line = lineTabLineF f2 l a line := by
  intro f1
  induction f1 with
  | zero =>
    intro f2 l a line h1 _
    have : ¬ 255 < line := by omega
    rw [lineTabLineF_stop 0 l a line this, lineTabLineF_stop f2 l a line this]
  | succ f1 ih =>
    intro f2 l a line h1 h2
    by_cases hl : 255 < line
    · have hf2 : ∃ k, f2 = k + 1 := ⟨f2 - 1, by omega⟩
      rcases hf2 with ⟨k, rfl⟩
      show (if 255 < line then lineTabLineF f1 (l ++ [a, 255]) 0 (line - 255)
            else (l, a, line)) =
        (if 255 < line then lineTabLineF k (l ++ [a, 255]) 0 (line - 255)
         else (l, a, line))
      rw [if_pos hl, if_pos hl]
      exact ih k (l ++ [a, 255]) 0 (line - 255) (by omega) (by omega)
    · rw [lineTabLineF_stop _ l a line hl, lineTabLineF_stop f2 l a line hl]

/-- One-step unfolding of the second `while` loop. -/
theorem lineTabLine_step (l : List Int) (a line : Int) :
    lineTabLine l a line =
      if 255 < line then lineTabLine (l ++ [a, 255]) 0 (line - 255)
      else (l, a, line) := by
  by_cases hl : 255 < line
  · rw [if_pos hl]
    show lineTabLineF line.toNat l a line = lineTabLineF (line - 255).toNat _ _ _
    have hk : ∃ k, line.toNat = k + 1 := ⟨line.toNat - 1, by omega⟩
    rcases hk with ⟨k, hk⟩
    rw [hk]
    show (if 255 < line then lineTabLineF k (l ++ [a, 255]) 0 (line - 255)
          else (l, a, line)) = _
    rw [if_pos hl]
    exact lineTabLineF_adequate k _ _ _ _ (by omega) (by omega)
  · rw [if_neg hl]
    exact lineTabLineF_stop _ l a line hl

/-- Written from the words of the spec (section 4.H), for comparison with
the source encoder: emit as many `(255, 0)` pairs as needed to consume
`addr` down to at most 255, then as many `(addr, 255)` pairs (with
subsequent `addr = 0`) to consume `line` down to at most 255, then a final
`(addr, line)` if either remainder is nonzero.  Fuel-indexed; the wrapper
supplies adequate fuel. -/
def specLnotabBytesF : Nat → Int → Int → List Int
  | 0, _, _ => []
  | fuel + 1, addr, line =>
    if 255 < addr then 255 :: 0 :: specLnotabBytesF fuel (addr - 255) line
    else if 255 < line then addr :: 255 :: specLnotabBytesF fuel 0 (line - 255)
    else if 0 < addr ∨ 0 < line then [addr, line] else []

/-- The lnotab byte pairs the spec prescribes for one address/line delta. -/
def specLnotabBytes (addr line : Int) : List Int :=
  specLnotabBytesF (addr.toNat + line.toNat + 1) addr line

theorem lnotabAppend_spec :
    ∀ (fuel : Nat) (addr line : Int) (l : List Int),
      addr.toNat + line.toNat < fuel →
      lnotabAppend l addr line = l ++ specLnotabBytesF fuel addr line := by
  intro fuel
  induction fuel with
  | zero => intro addr line l h; omega
  | succ fuel ih =>
    intro addr line l h
    by_cases ha : 255 < addr
    · have hrec := ih (addr - 255) line (l ++ [255, 0]) (by omega)
      show lnotabAppend l addr line =
        l ++ (if 255 < addr then
                255 :: 0 :: specLnotabBytesF fuel (addr - 255) line
              else if 255 < line then
                addr :: 255 :: specLnotabBytesF fuel 0 (line - 255)
              else if 0 < addr ∨ 0 < line then [addr, line] else [])
      rw [if_pos ha]
      have hstep : lnotabAppend l addr line =
          lnotabAppend (l ++ [255, 0]) (addr - 255) line := by
        unfold lnotabAppend
        rw [lineTabAddr_step l addr, if_pos ha]
      rw [hstep, hrec]
      simp
    · by_cases hl : 255 < line
      · have hrec := ih 0 (line - 255) (l ++ [addr, 255]) (by omega)
        show lnotabAppend l addr line =
          l ++ (if 255 < addr then
                  255 :: 0 :: specLnotabBytesF fuel (addr - 255) line
                else if 255 < line then
                  addr :: 255 :: specLnotabBytesF fuel 0 (line - 255)
                else if 0 < addr ∨ 0 < line then [addr, line] else [])
        rw [if_neg ha, if_pos hl]
        have hstep : lnotabAppend l addr line =
            lnotabAppend (l ++ [addr, 255]) 0 (line - 255) := by
          unfold lnotabAppend
          dsimp only
          rw [lineTabAddr_step l addr, if_neg ha]
          dsimp only
          rw [lineTabLine_step l addr line, if_pos hl]
          have h0 : lineTabAddr (l ++ [addr, 255]) 0 = (l ++ [addr, 255], 0) := by
            rw [lineTabAddr_step]
            norm_num
          rw [h0]
        rw [hstep, hrec]
        simp
      · show lnotabAppend l addr line =
          l ++ (if 255 < addr then
                  255 :: 0 :: specLnotabBytesF fuel (addr - 255) line
                else if 255 < line then
                  addr :: 255 :: specLnotabBytesF fuel 0 (line - 255)
                else if 0 < addr ∨ 0 < line then [addr, line] else [])
        rw [if_neg ha, if_neg hl]
        unfold lnotabAppend
        dsimp only
        rw [lineTabAddr_step l addr, if_neg ha]
        dsimp only
        rw [lineTabLine_step l addr line, if_neg hl]
        by_cases hz : 0 < addr ∨ 0 < line
        · rw [if_pos hz, if_pos hz]
        · rw [if_neg hz, if_neg hz]; simp

set_option maxRecDepth 8192 in
/-- CLAIM C6: on each `SET_LINENO` after the first with a nonnegative line
delta, `nextLine` extends the lnotab by exactly the spec-prescribed byte
pairs ((255,0) pairs while the address delta exceeds 255, then (addr,255)
pairs with addr zeroed, then a final (addr,line) pair when either remainder
is nonzero) and records the new line and offset; in particular the S5
scenario -- SET_LINENO 1 at offset 0, 300 code bytes, SET_LINENO 2 --
yields the byte pairs (255, 0) then (45, 1). -/
theorem nextLine_lnotab_spec :
    (∀ (st : AState) (lineno : Int),
        st.firstline ≠ 0 → 0 ≤ lineno - st.lastline →
        (nextLine st lineno).lnotab =
            st.lnotab ++
              specLnotabBytes ((st.codeOffset : Int) - (st.lastoff : Int))
                (lineno - st.lastline) ∧
          (nextLine st lineno).lastline = lineno ∧
          (nextLine st lineno).lastoff = st.codeOffset) ∧
    (addCode (nextLine initialAssembler 1) (List.replicate 300 9)).map
        (fun st => (nextLine st 2).lnotab) = some [255, 0, 45, 1] := by
  constructor
  · intro st lineno h1 h2
    unfold nextLine
    rw [if_neg h1, if_pos h2]
    refine ⟨?_, rfl, rfl⟩
    exact lnotabAppend_spec _ _ _ _ (Nat.lt_succ_of_le (Nat.le_refl _))
  · decide

/-- CLAIM C6 witness: the general clause applied at the concrete state
reached after `SET_LINENO 1` and 300 code bytes. -/
theorem nextLine_lnotab_spec_w :
    (nextLine { code := List.replicate 300 9, codeOffset := 300,
                firstline := 1, lastline := 1, lastoff := 0,
                lnotab := [] } 2).lnotab = [255, 0, 45, 1] := by
  have h := nextLine_lnotab_spec.1
    { code := List.replicate 300 9, codeOffset := 300, firstline := 1,
      lastline := 1, lastoff := 0, lnotab := [] } 2
    (by decide) (by decide)
  exact h.1.trans (by decide)

/-- The fragment of the CPython 2.7 opcode numbering (`dis.opname` /
`OPNUM` in pyassem.py line 14) used in this development.  `OPNUM` in the
source is total over the names of the table and raises KeyError otherwise;
lookups of names outside the table yield `Option.none` here. -/
def opnumTable : List (String × Nat) :=
  [("POP_TOP", 1), ("DUP_TOP", 4), ("BINARY_ADD", 23),
   ("RETURN_VALUE", 83), ("STORE_NAME", 90), ("UNPACK_SEQUENCE", 92),
   ("FOR_ITER", 93), ("DUP_TOPX", 99), ("LOAD_CONST", 100),
   ("LOAD_NAME", 101), ("BUILD_TUPLE", 102), ("LOAD_ATTR", 106),
   ("COMPARE_OP", 107), ("IMPORT_NAME", 108), ("JUMP_FORWARD", 110),
   ("JUMP_IF_FALSE_OR_POP", 111), ("JUMP_IF_TRUE_OR_POP", 112),
   ("JUMP_ABSOLUTE", 113), ("POP_JUMP_IF_FALSE", 114),
   ("POP_JUMP_IF_TRUE", 115), ("LOAD_GLOBAL", 116), ("CONTINUE_LOOP", 119),
   ("SETUP_LOOP", 120), ("SETUP_EXCEPT", 121), ("SETUP_FINALLY", 122),
   ("LOAD_FAST", 124), ("STORE_FAST", 125), ("RAISE_VARARGS", 130),
   ("CALL_FUNCTION", 131), ("MAKE_FUNCTION", 132), ("BUILD_SLICE", 133),
   ("MAKE_CLOSURE", 134), ("LOAD_CLOSURE", 135), ("LOAD_DEREF", 136),
   ("STORE_DEREF", 137), ("CALL_FUNCTION_VAR", 140),
   ("CALL_FUNCTION_KW", 141), ("CALL_FUNCTION_VAR_KW", 142),
   ("SETUP_WITH", 143), ("SET_ADD", 146), ("MAP_ADD", 147)]

/-- Numeric opcode of a mnemonic (`OPNUM[opname]`). -/
def OPNUM (op : String) : Option Nat :=
  (opnumTable.find? (fun p => p.1 == op)).map (fun p => p.2)

/-- The relative-jump opcode names of the CPython 2.7 `dis` module
(`HAS_JREL`, pyassem.py line 10). -/
def HAS_JREL : List String :=
  ["FOR_ITER", "JUMP_FORWARD", "SETUP_LOOP", "SETUP_EXCEPT",
   "SETUP_FINALLY", "SETUP_WITH"]

/-- The absolute-jump opcode names of the CPython 2.7 `dis` module
(`HAS_JABS`, pyassem.py line 11). -/
def HAS_JABS : List String :=
  ["JUMP_IF_FALSE_OR_POP", "JUMP_IF_TRUE_OR_POP", "JUMP_ABSOLUTE",
   "POP_JUMP_IF_FALSE", "POP_JUMP_IF_TRUE", "CONTINUE_LOOP"]

theorem opnumTable_le_255 : ∀ p ∈ opnumTable, p.2 ≤ 255 := by decide

theorem OPNUM_le_255 (op : String) (m : Nat) (h : OPNUM op = some m) :
    m ≤ 255 := by
  unfold OPNUM at h
  cases hf : opnumTable.find? (fun p => p.1 == op) with
  | none => rw [hf] at h; cases h
  | some p =>
    rw [hf] at h
    cases h
    exact opnumTable_le_255 p (List.mem_of_find?_eq_some hf)

/-- One instruction of `Assemble` (pyassem.py lines 97-115): a 1-field
instruction emits its opcode byte; `SET_LINENO` drives `nextLine` and
emits nothing; any other 2-field instruction computes
`hi, lo = divmod(oparg, 256)` and emits opcode, lo, hi.  A `divmod` on a
non-integer oparg, an opcode outside the table, or a `chr` argument out of
`[0, 255]` raises (`Option.none`). -/
def assembleStep (st : AState) (inst : Inst) : Option AState :=
  match inst with
  | .one op => (OPNUM op).bind (fun m => addCode st [(m : Int)])
  | .two op arg =>
    if op = "SET_LINENO" then
      match arg with
      | .num lineno => some (nextLine st lineno)
      | _ => Option.none
    else
      match arg with
      | .num oparg =>
        let hi := oparg.fdiv 256
        let lo := oparg.fmod 256
        (OPNUM op).bind (fun m => addCode st [(m : Int), lo, hi])
      | _ => Option.none

/-- Embedding of `Assemble(insts)` (pyassem.py lines 97-115): fold the
instruction list over a fresh assembler. -/
def Assemble (insts : List Inst) : Option AState :=
  go insts initialAssembler
where
  go : List Inst → AState → Option AState
  | [], st => some st
  | t :: rest, st => (assembleStep st t).bind (go rest)

/-- CLAIM C9: packing a 2-field instruction whose opcode is not SET_LINENO
raises exactly when the integer oparg lies outside [0, 65535]; within the
range it succeeds and emits exactly three bytes: the opcode number, then
oparg mod 256, then oparg div 256. -/
theorem pack_two_field (st : AState) (op : String) (m : Nat) (n : Int)
    (hop : OPNUM op = some m) (hsl : op ≠ "SET_LINENO") :
    (assembleStep st (.two op (.num n)) = Option.none ↔ (n < 0 ∨ 65535 < n)) ∧
    (0 ≤ n → n ≤ 65535 →
      assembleStep st (.two op (.num n)) = some
        { st with
            code := st.code ++ [m, (n.fmod 256).toNat, (n.fdiv 256).toNat],
            codeOffset := st.codeOffset + 3 }) := by
  have hm255 : (m : Int) ≤ 255 := by
    exact_mod_cast OPNUM_le_255 op m hop
  have hm0 : (0 : Int) ≤ (m : Int) := Int.natCast_nonneg m
  have hlo0 : (0 : Int) ≤ n.fmod 256 := Int.fmod_nonneg' n (by norm_num)
  have hlo255 : n.fmod 256 ≤ 255 := by
    have := Int.fmod_lt_of_pos n (b := 256) (by norm_num)
    omega
  have hdiv : n.fdiv 256 = n / 256 := Int.fdiv_eq_ediv n (by norm_num)
  have hstep : assembleStep st (.two op (.num n)) =
      addCode st [(m : Int), n.fmod 256, n.fdiv 256] := by
    unfold assembleStep
    dsimp only
    rw [if_neg hsl]
    rw [hop]
    rfl
  rw [hstep]
  unfold addCode
  by_cases hr : 0 ≤ n ∧ n ≤ 65535
  · have hhi0 : (0 : Int) ≤ n.fdiv 256 := by rw [hdiv]; omega
    have hhi255 : n.fdiv 256 ≤ 255 := by rw [hdiv]; omega
    have hchr : chrList [(m : Int), n.fmod 256, n.fdiv 256] =
        some [m, (n.fmod 256).toNat, (n.fdiv 256).toNat] := by
      unfold chrList chrList chrList chrList
      rw [if_pos ⟨hm0, hm255⟩, if_pos ⟨hlo0, hlo255⟩, if_pos ⟨hhi0, hhi255⟩]
      simp
    rw [hchr]
    constructor
    · constructor
      · intro hnone; cases hnone
      · intro hout; omega
    · intro _ _; rfl
  · have hhi : ¬ ((0 : Int) ≤ n.fdiv 256 ∧ n.fdiv 256 ≤ 255) := by
      rw [hdiv]; omega
    have hchr : chrList [(m : Int), n.fmod 256, n.fdiv 256] = Option.none := by
      unfold chrList chrList chrList
      rw [if_pos ⟨hm0, hm255⟩, if_pos ⟨hlo0, hlo255⟩, if_neg hhi]
      simp
    rw [hchr]
    constructor
    · constructor
      · intro _; omega
      · intro _; rfl
    · intro h1 h2; omega

/-- A concrete assembler state with some code already emitted, used to
instantiate packing theorems. -/
def demoAState : AState :=
  { code := [9], codeOffset := 1, firstline := 1, lastline := 1,
    lastoff := 0, lnotab := [] }

/-- CLAIM C9 witness: packing `LOAD_CONST 300` after one already-emitted
byte appends the bytes 100, 44, 1 and advances the offset to 4; packing
`LOAD_CONST 65536` fails. -/
theorem pack_two_field_w :
    assembleStep demoAState (.two "LOAD_CONST" (.num 300)) = some
      { code := [9, 100, 44, 1], codeOffset := 4, firstline := 1,
        lastline := 1, lastoff := 0, lnotab := [] } ∧
    assembleStep demoAState (.two "LOAD_CONST" (.num 65536)) = Option.none := by
  constructor
  · have h := (pack_two_field demoAState "LOAD_CONST" 100 300 (by decide)
      (by decide)).2 (by decide) (by decide)
    exact h.trans (by decide)
  · exact ((pack_two_field demoAState "LOAD_CONST" 100 65536 (by decide)
      (by decide)).1).mpr (by decide)

/-- The `StackDepthTracker.effect` table (pyassem.py lines 651-692):
exact-opcode stack effects. -/
def effectTable : List (String × Int) :=
  [("POP_TOP", -1), ("DUP_TOP", 1), ("LIST_APPEND", -1), ("SET_ADD", -1),
   ("MAP_ADD", -2), ("SLICE+1", -1), ("SLICE+2", -1), ("SLICE+3", -2),
   ("STORE_SLICE+0", -1), ("STORE_SLICE+1", -2), ("STORE_SLICE+2", -2),
   ("STORE_SLICE+3", -3), ("DELETE_SLICE+0", -1), ("DELETE_SLICE+1", -2),
   ("DELETE_SLICE+2", -2), ("DELETE_SLICE+3", -3), ("STORE_SUBSCR", -3),
   ("DELETE_SUBSCR", -2), ("PRINT_ITEM", -1), ("RETURN_VALUE", -1),
   ("YIELD_VALUE", -1), ("EXEC_STMT", -3), ("BUILD_CLASS", -2),
   ("STORE_NAME", -1), ("STORE_ATTR", -2), ("DELETE_ATTR", -1),
   ("STORE_GLOBAL", -1), ("BUILD_MAP", 1), ("COMPARE_OP", -1),
   ("STORE_FAST", -1), ("IMPORT_STAR", -1), ("IMPORT_NAME", -1),
   ("IMPORT_FROM", 1), ("LOAD_ATTR", 0), ("SETUP_EXCEPT", 3),
   ("SETUP_FINALLY", 3), ("FOR_ITER", 1), ("WITH_CLEANUP", -1)]

/-- Lookup in the exact-opcode effect table (`self.effect.get(opname, None)`). -/
def stackEffect (op : String) : Option Int :=
  (effectTable.find? (fun p => p.1 == op)).map (fun p => p.2)

/-- The `StackDepthTracker.patterns` list (pyassem.py lines 694-697). -/
def stackPatterns : List (String × Int) := [("BINARY_", -1), ("LOAD_", 1)]

/-- The pattern scan of `findDepth` (`opname[:len(pat)] == pat`, first
match wins). -/
def findPatternDelta : List (String × Int) → String → Option Int
  | [], _ => Option.none
  | (pat, d) :: rest, op =>
    if op.take pat.length = pat then some d else findPatternDelta rest op

/-- The argument-dependent per-opcode methods of `StackDepthTracker`
(pyassem.py lines 699-727), looked up by `getattr(self, opname, None)`.
`BUILD_SLICE` returns `None` on an argument other than 2 or 3, which makes
`depth + None` raise; the inner `Option` models that. -/
def methodDelta (op : String) : Option (Int → Option Int) :=
  if op = "UNPACK_SEQUENCE" then some (fun count => some (count - 1))
  else if op = "BUILD_TUPLE" then some (fun count => some (-count + 1))
  else if op = "BUILD_LIST" then some (fun count => some (-count + 1))
  else if op = "BUILD_SET" then some (fun count => some (-count + 1))
  else if op = "CALL_FUNCTION" then
    some (fun argc => some (-(argc.fmod 256 + argc.fdiv 256 * 2)))
  else if op = "CALL_FUNCTION_VAR" then
    some (fun argc => some (-(argc.fmod 256 + argc.fdiv 256 * 2) - 1))
  else if op = "CALL_FUNCTION_KW" then
    some (fun argc => some (-(argc.fmod 256 + argc.fdiv 256 * 2) - 1))
  else if op = "CALL_FUNCTION_VAR_KW" then
    some (fun argc => some (-(argc.fmod 256 + argc.fdiv 256 * 2) - 2))
  else if op = "MAKE_FUNCTION" then some (fun argc => some (-argc))
  else if op = "MAKE_CLOSURE" then some (fun argc => some (-argc))
  else if op = "BUILD_SLICE" then
    some (fun argc => if argc = 2 then some (-1)
      else if argc = 3 then some (-2) else Option.none)
  else if op = "DUP_TOPX" then some (fun argc => some argc)
  else Option.none

/-- The per-instruction depth change of one `findDepth` iteration: the
exact table first, else the prefix patterns, else the per-opcode method
applied to `i[1]` (which must be an integer), else no change.
`Option.none` models the TypeErrors of the source. -/
def stepDelta (inst : Inst) : Option Int :=
  match stackEffect inst.opname with
  | some d => some d
  | Option.none =>
    match findPatternDelta stackPatterns inst.opname with
    | some d => some d
    | Option.none =>
      match methodDelta inst.opname with
      | Option.none => some 0
      | some f =>
        match inst with
        | .two _ (.num arg) => f arg
        | _ => Option.none

/-- The loop of `StackDepthTracker.findDepth` (pyassem.py lines 623-649):
accumulate `depth`, tracking the running maximum `maxDepth`. -/
def findDepthGo : List Inst → Int → Int → Option Int
  | [], _, maxD => some maxD
  | i :: rest, depth, maxD =>
    match stepDelta i with
    | Option.none => Option.none
    | some d =>
      findDepthGo rest (depth + d)
        (if maxD < depth + d then depth + d else maxD)

/-- Embedding of `StackDepthTracker.findDepth(insts)`: starts with
`depth = 0`, `maxDepth = 0` and returns `maxDepth`. -/
def findDepth (insts : List Inst) : Option Int := findDepthGo insts 0 0

/-- Written from the words of the spec (section 4.E): the per-block value
the claim asserts, namely the SUM of the per-opcode stack effects of the
instructions of the block. -/
def specBlockDeltaSum : List Inst → Option Int
  | [] => some 0
  | i :: rest =>
    (stepDelta i).bind (fun d => (specBlockDeltaSum rest).map (fun s => d + s))

/-- CLAIM C5 counterexample: for the one-instruction block `[POP_TOP]` the
sum of per-opcode effects is -1, but `findDepth` returns 0 (it returns the
running maximum of the cumulative depth, never below the initial 0), so the
per-block value is not the sum of effects. -/
theorem findDepth_sum_cex :
    findDepth [Inst.one "POP_TOP"] = some 0 ∧
    specBlockDeltaSum [Inst.one "POP_TOP"] = some (-1) ∧
    findDepth [Inst.one "POP_TOP"] ≠ specBlockDeltaSum [Inst.one "POP_TOP"] := by
  refine ⟨by decide, by decide, by decide⟩

theorem findDepthGo_scanl :
    ∀ (insts : List Inst) (ds : List Int) (depth maxD : Int),
      insts.mapM stepDelta = some ds →
      findDepthGo insts depth maxD =
        some (List.foldl max maxD (List.scanl (· + ·) depth ds).tail) := by
  intro insts
  induction insts with
  | nil =>
    intro ds depth maxD h
    cases h
    rfl
  | cons i rest ih =>
    intro ds depth maxD h
    cases hd : stepDelta i with
    | none => rw [List.mapM_cons, hd] at h; cases h
    | some d =>
      rw [List.mapM_cons, hd] at h
      cases hrest : rest.mapM stepDelta with
      | none => rw [hrest] at h; cases h
      | some ds' =>
        rw [hrest] at h
        cases h
        show findDepthGo (i :: rest) depth maxD =
          some (List.foldl max maxD
            (List.scanl (· + ·) depth (d :: ds')).tail)
        unfold findDepthGo
        rw [hd]
        dsimp only
        rw [List.scanl_cons]
        simp only [List.singleton_append, List.tail_cons]
        have hmax : (if maxD < depth + d then depth + d else maxD) =
            max maxD (depth + d) := by
          rcases le_or_lt (depth + d) maxD with hle | hlt
          · rw [if_neg (by omega), max_eq_left hle]
          · rw [if_pos hlt, max_eq_right (le_of_lt hlt)]
        rw [hmax, ih ds' (depth + d) _ hrest]
        have hscan : ∃ t, List.scanl (· + ·) (depth + d) ds' =
            (depth + d) :: t := by
          cases ds' <;> exact ⟨_, rfl⟩
        rcases hscan with ⟨t, ht⟩
        rw [ht]
        simp [List.foldl_cons]

/-- CLAIM C5 amended: the per-block value computed by the stack-depth
analysis (the value path traversal accumulates) is not the sum of the
per-opcode effects but the running maximum -- the largest value, clamped
below at 0, attained by the cumulative sum of the per-opcode effects over
the prefixes of the block's instruction list. -/
theorem findDepth_running_max (insts : List Inst) (ds : List Int)
    (h : insts.mapM stepDelta = some ds) :
    findDepth insts =
      some (List.foldl max 0 (List.scanl (· + ·) 0 ds)) := by
  unfold findDepth
  rw [findDepthGo_scanl insts ds 0 0 h]
  have hscan : ∃ t, List.scanl (· + ·) (0 : Int) ds = 0 :: t := by
    cases ds <;> exact ⟨_, rfl⟩
  rcases hscan with ⟨t, ht⟩
  rw [ht]
  simp [List.foldl_cons]

/-- CLAIM C5 witness: the amended characterization at the concrete block
`[DUP_TOP, POP_TOP]`, whose effect sum is 0 but whose depth value is 1. -/
theorem findDepth_running_max_w :
    findDepth [Inst.one "DUP_TOP", Inst.one "POP_TOP"] = some 1 := by
  have h := findDepth_running_max [Inst.one "DUP_TOP", Inst.one "POP_TOP"]
    [1, -1] (by decide)
  exact h.trans (by decide)

/-- A basic block (pyassem.py lines 256-344): identity `bid` (the global
creation counter, also the hash), a label (the exit block is labeled
"exit"), the emitted instructions, jump-target out-edges, and the
fall-through `next`/`prev` links.  Block references are embedded as bids;
`outEdges`, `next` and `prev` hold bids. -/
structure Block where
  bid : Nat
  label : String
  insts : List Inst
  outEdges : List Nat
  next : List Nat
  prev : List Nat
  deriving DecidableEq, Repr

/-- Byte size of one instruction in the layout of `FlattenGraph`
(pyassem.py lines 75-79 and 83-86): a 1-field instruction takes 1 byte,
`SET_LINENO` takes 0, every other 2-field instruction takes 3. -/
def instSize : Inst → Nat
  | .one _ => 1
  | .two op _ => if op = "SET_LINENO" then 0 else 3

/-- Total byte size of an instruction list. -/
def instsSize (l : List Inst) : Nat := (l.map instSize).sum

/-- Pass 1 of `FlattenGraph` (pyassem.py lines 68-80): record the program
counter at entry to each block.  Entries are recorded in visit order; the
lookup below uses the last entry for a bid, matching the dict assignment
`begin[b] = pc` overriding earlier ones. -/
def beginMap : List Block → Nat → List (Nat × Nat)
  | [], _ => []
  | b :: rest, pc => (b.bid, pc) :: beginMap rest (pc + instsSize b.insts)

/-- Dict lookup `begin[b]`: the last recorded entry for `b` wins. -/
def beginLookup (m : List (Nat × Nat)) (b : Nat) : Option Nat :=
  (m.reverse.find? (fun p => p.1 == b)).map (fun p => p.2)

/-- The flat instruction list accumulated by pass 1 (`insts.append(inst)`). -/
def flatInsts (blocks : List Block) : List Inst :=
  (blocks.map (fun b => b.insts)).join

/-- The rewrite of one instruction in pass 2 of `FlattenGraph` (pyassem.py
lines 87-93), given the program counter `pcNew` already advanced past the
instruction: a relative-jump oparg becomes `begin[target] - pc`, an
absolute-jump oparg becomes `begin[target]`, others pass through.
A jump whose oparg is not a block raises KeyError, and a 1-field jump
opcode raises IndexError on `inst[1]`: both are `Option.none`. -/
def fixupInst (begin : List (Nat × Nat)) (pcNew : Nat) : Inst → Option Inst
  | .one op =>
    if HAS_JREL.contains op || HAS_JABS.contains op then Option.none
    else some (.one op)
  | .two op arg =>
    if HAS_JREL.contains op then
      match arg with
      | .blk b => (beginLookup begin b).map
          (fun (t : Nat) => Inst.two op (.num ((t : Int) - (pcNew : Int))))
      | _ => Option.none
    else if HAS_JABS.contains op then
      match arg with
      | .blk b => (beginLookup begin b).map
          (fun (t : Nat) => Inst.two op (.num (t : Int)))
      | _ => Option.none
    else some (.two op arg)

/-- Pass 2 of `FlattenGraph`: advance the program counter over each
instruction and rewrite it in place. -/
def fixupGo (begin : List (Nat × Nat)) : Nat → List Inst → Option (List Inst)
  | _, [] => some []
  | pc, inst :: rest =>
    match fixupInst begin (pc + instSize inst) inst with
    | some inst2 =>
      (fixupGo begin (pc + instSize inst) rest).map (fun r => inst2 :: r)
    | Option.none => Option.none

/-- Embedding of `FlattenGraph(blocks)` (pyassem.py lines 66-94). -/
def FlattenGraph (blocks : List Block) : Option (List Inst) :=
  fixupGo (beginMap blocks 0) 0 (flatInsts blocks)

/-- Byte offset at which instruction `i` of the flat list starts. -/
def offsetUpTo (l : List Inst) (i : Nat) : Nat :=
  ((l.take i).map instSize).sum

theorem offsetUpTo_zero (l : List Inst) : offsetUpTo l 0 = 0 := rfl

theorem offsetUpTo_succ (inst : Inst) (rest : List Inst) (i : Nat) :
    offsetUpTo (inst :: rest) (i + 1) = instSize inst + offsetUpTo rest i := by
  simp [offsetUpTo, List.take_succ_cons]

theorem fixupGo_get (begin : List (Nat × Nat)) :
    ∀ (l : List Inst) (pc : Nat) (out : List Inst),
      fixupGo begin pc l = some out →
      ∀ (i : Nat) (inst : Inst), l.get? i = some inst →
        ∃ inst2,
          fixupInst begin (pc + offsetUpTo l i + instSize inst) inst =
            some inst2 ∧
          out.get? i = some inst2 := by
  intro l
  induction l with
  | nil => intro pc out _ i inst h; cases h
  | cons hd rest ih =>
    intro pc out hout i inst hget
    unfold fixupGo at hout
    cases hfix : fixupInst begin (pc + instSize hd) hd with
    | none => rw [hfix] at hout; cases hout
    | some hd2 =>
      rw [hfix] at hout
      cases hrec : fixupGo begin (pc + instSize hd) rest with
      | none => rw [hrec] at hout; cases hout
      | some r =>
        rw [hrec] at hout
        cases hout
        cases i with
        | zero =>
          cases hget
          exact ⟨hd2, by simpa [offsetUpTo_zero] using hfix, rfl⟩
        | succ i =>
          have hget' : rest.get? i = some inst := hget
          rcases ih (pc + instSize hd) r hrec i inst hget' with
            ⟨inst2, hfix2, hout2⟩
          refine ⟨inst2, ?_, hout2⟩
          rw [offsetUpTo_succ]
          have harith : pc + (instSize hd + offsetUpTo rest i) + instSize inst =
              pc + instSize hd + offsetUpTo rest i + instSize inst := by omega
          rw [harith]
          exact hfix2

theorem jrel_not_SET_LINENO (op : String) (h : HAS_JREL.contains op = true) :
    op ≠ "SET_LINENO" := by
  have hm : op ∈ HAS_JREL := (list_contains_mem _ _).mp h
  fin_cases hm <;> decide

theorem jabs_not_SET_LINENO (op : String) (h : HAS_JABS.contains op = true) :
    op ≠ "SET_LINENO" := by
  have hm : op ∈ HAS_JABS := (list_contains_mem _ _).mp h
  fin_cases hm <;> decide

theorem jrel_not_jabs (op : String) (h : HAS_JREL.contains op = true) :
    HAS_JABS.contains op = false := by
  have hm : op ∈ HAS_JREL := (list_contains_mem _ _).mp h
  fin_cases hm <;> decide

/-- CLAIM C1: after `FlattenGraph` over the ordered block list, every
relative-jump instruction starting at byte offset `p` with symbolic target
block `b` carries oparg `begin[b] - (p + 3)`, and every absolute-jump
instruction targeting `b` carries oparg `begin[b]`, where `begin` is the
pass-1 layout (1 byte for 1-field instructions, 0 for SET_LINENO, 3
otherwise). -/
theorem flatten_jump_layout (blocks : List Block) (out : List Inst)
    (hout : FlattenGraph blocks = some out)
    (i : Nat) (op : String) (b : Nat) (t : Nat)
    (hinst : (flatInsts blocks).get? i = some (.two op (.blk b)))
    (hbegin : beginLookup (beginMap blocks 0) b = some t) :
    (HAS_JREL.contains op = true →
      out.get? i = some (.two op (.num ((t : Int) -
        ((offsetUpTo (flatInsts blocks) i : Int) + 3))))) ∧
    (HAS_JABS.contains op = true →
      out.get? i = some (.two op (.num (t : Int)))) := by
  rcases fixupGo_get (beginMap blocks 0) (flatInsts blocks) 0 out hout i _ hinst
    with ⟨inst2, hfix, hget2⟩
  constructor
  · intro hrel
    have hsize : instSize (.two op (.blk b)) = 3 := by
      simp only [instSize, if_neg (jrel_not_SET_LINENO op hrel)]
    rw [hsize] at hfix
    simp only [fixupInst, hrel, hbegin, if_true] at hfix
    have hfix2 : Inst.two op (Arg.num ((t : Int) -
        ((0 + offsetUpTo (flatInsts blocks) i + 3 : Nat) : Int))) = inst2 :=
      Option.some.inj hfix
    rw [hget2, ← hfix2]
    have hcast :
        ((t : Int) - ((0 + offsetUpTo (flatInsts blocks) i + 3 : Nat) : Int))
        = (t : Int) - ((offsetUpTo (flatInsts blocks) i : Int) + 3) := by
      push_cast
      ring
    rw [hcast]
  · intro habs
    have hsize : instSize (.two op (.blk b)) = 3 := by
      simp only [instSize, if_neg (jabs_not_SET_LINENO op habs)]
    rw [hsize] at hfix
    by_cases hrel : HAS_JREL.contains op = true
    · rw [jrel_not_jabs op hrel] at habs; cases habs
    · rw [Bool.not_eq_true] at hrel
      simp only [fixupInst, hrel, habs, hbegin, if_true, if_false,
        Bool.false_eq_true] at hfix
      have hfix2 : Inst.two op (Arg.num (t : Int)) = inst2 :=
        Option.some.inj hfix
      rw [hget2, ← hfix2]

/-- Blocks for instantiating the flattening theorems: block 0 jumps
forward to block 1. -/
def demoBlocks : List Block :=
  [{ bid := 0, label := "", insts := [.two "JUMP_FORWARD" (.blk 1)],
     outEdges := [1], next := [], prev := [] },
   { bid := 1, label := "", insts := [.one "RETURN_VALUE"],
     outEdges := [], next := [], prev := [] }]

/-- CLAIM C1 witness: flattening `demoBlocks` rewrites the forward jump at
offset 0 to the relative oparg `begin[1] - 3 = 0`. -/
theorem flatten_jump_layout_w :
    (FlattenGraph demoBlocks).bind (fun l => l.get? 0) =
      some (Inst.two "JUMP_FORWARD" (Arg.num 0)) := by
  have hout : FlattenGraph demoBlocks =
      some [Inst.two "JUMP_FORWARD" (Arg.num 0), Inst.one "RETURN_VALUE"] := by
    decide
  have h := (flatten_jump_layout demoBlocks
    [Inst.two "JUMP_FORWARD" (Arg.num 0), Inst.one "RETURN_VALUE"] hout
    0 "JUMP_FORWARD" 1 3 (by decide) (by decide)).1 (by decide)
  rw [hout]
  exact h.trans (by decide)

/-- A flow graph: the universe of blocks, addressed by bid.  Source block
references are Python object pointers; the embedding uses bids, unique per
graph (the source guarantees this with a global creation counter). -/
abbrev Graph := List Block

/-- Look a block up by bid. -/
def findBlock (g : Graph) (b : Nat) : Option Block :=
  g.find? (fun bl => bl.bid == b)

/-- `Block.get_children` (pyassem.py lines 317-318):
`list(self.outEdges) + self.next`.  A bid absent from the graph has no
counterpart in the source (references are pointers); it yields `[]`. -/
def childrenOf (g : Graph) (b : Nat) : List Nat :=
  match findBlock g b with
  | some bl => bl.outEdges ++ bl.next
  | Option.none => []

/-- Head of the `next` list of a block (`b.next[0]` when `b.next` is
nonempty). -/
def nextHead (g : Graph) (b : Nat) : Option Nat :=
  match findBlock g b with
  | some bl => bl.next.head?
  | Option.none => Option.none

/-- `b.has_unconditional_transfer()` looked up through the graph. -/
def blockHasUncond (g : Graph) (b : Nat) : Bool :=
  match findBlock g b with
  | some bl => hasUncondTransfer bl.insts
  | Option.none => false

/-- The reachability scan of `OrderBlocks` (pyassem.py lines 196-205):
worklist DFS collecting `remaining`.  The Python `todo` list pushes and
pops at the tail; the embedding keeps the stack top at the head, pushing
each child batch reversed, which pops in the same order.  `remaining` is
the Python set in insertion order. -/
def dfsGo (g : Graph) : Nat → List Nat → List Nat → Option (List Nat)
  | 0, _, _ => Option.none
  | _ + 1, [], remaining => some remaining
  | fuel + 1, b :: todo, remaining =>
    if remaining.contains b then dfsGo g fuel todo remaining
    else
      let remaining2 := remaining ++ [b]
      let newKids :=
        (childrenOf g b).filter (fun c => !(remaining2.contains c))
      dfsGo g fuel (newKids.reverse ++ todo) remaining2

/-- Duplicate-free image of a bid list, keeping first occurrences (a
Python set of blocks in insertion order). -/
def natSetGo (acc : List Nat) : List Nat → List Nat
  | [] => acc
  | x :: rest => natSetGo (if acc.contains x then acc else acc ++ [x]) rest

/-- Build a set of bids from a list. -/
def natSet (l : List Nat) : List Nat := natSetGo [] l

/-- The relative-jump targets of an instruction list, as gathered by
`Block.get_followers` (pyassem.py lines 320-328).  A 1-field relative-jump
instruction raises IndexError on `inst[1]`, and a non-block target makes
the dominator walk raise; both are `Option.none`. -/
def jrelTargets : List Inst → Option (List Nat)
  | [] => some []
  | .one op :: rest =>
    if HAS_JREL.contains op then Option.none else jrelTargets rest
  | .two op arg :: rest =>
    if HAS_JREL.contains op then
      match arg with
      | .blk b => (jrelTargets rest).map (fun l => b :: l)
      | _ => Option.none
    else jrelTargets rest

/-- `Block.get_followers`: the fall-through successor together with all
relative-jump targets. -/
def followersOf (bl : Block) : Option (List Nat) :=
  (jrelTargets bl.insts).map (fun ts => natSet (bl.next ++ ts))

/-- Dominator-set lookup (`dominators[b]`; every key is set up by
`setdefault` before `find_next` runs). -/
def domsGet (doms : List (Nat × List Nat)) (b : Nat) : List Nat :=
  match doms.find? (fun p => p.1 == b) with
  | some p => p.2
  | Option.none => []

/-- `dominators.setdefault(c, set()).add(b)`. -/
def domsAdd (doms : List (Nat × List Nat)) (c b : Nat) :
    List (Nat × List Nat) :=
  if (doms.find? (fun p => p.1 == c)).isSome then
    doms.map (fun p =>
      if p.1 == c then (p.1, if p.2.contains b then p.2 else p.2 ++ [b])
      else p)
  else doms ++ [(c, [b])]

/-- `dominators.setdefault(b, set())`. -/
def domsSetdefault (doms : List (Nat × List Nat)) (b : Nat) :
    List (Nat × List Nat) :=
  if (doms.find? (fun p => p.1 == b)).isSome then doms else doms ++ [(b, [])]

/-- The backward `while 1` walk of the dominator computation (pyassem.py
lines 218-226): record `b` as dominator of `c`, then follow the `prev`
chain while it does not point back at `b`.  Fuel-indexed: the source loops
forever on a cyclic prev chain. -/
def domWalk (g : Graph) (b : Nat) :
    Nat → Nat → List (Nat × List Nat) → Option (List (Nat × List Nat))
  | 0, _, _ => Option.none
  | fuel + 1, c, doms =>
    let doms2 := domsAdd doms c b
    match findBlock g c with
    | Option.none => Option.none
    | some cbl =>
      match cbl.prev.head? with
      | some p => if p ≠ b then domWalk g b fuel p doms2 else some doms2
      | Option.none => some doms2

/-- Run the dominator walk for every follower of `b`. -/
def walkFollowers (g : Graph) (b : Nat) (fuel : Nat) :
    List Nat → List (Nat × List Nat) → Option (List (Nat × List Nat))
  | [], doms => some doms
  | c :: rest, doms =>
    match domWalk g b fuel c doms with
    | some doms2 => walkFollowers g b fuel rest doms2
    | Option.none => Option.none

/-- The dominator-building loop of `OrderBlocks` (pyassem.py lines
209-226) over the `remaining` set, including the debug assertion
`b is b.next[0].prev[0]` (a failure, or the IndexError when the next block
has no prev, aborts). -/
def buildDoms (g : Graph) (fuel : Nat) :
    List Nat → List (Nat × List Nat) → Option (List (Nat × List Nat))
  | [], doms => some doms
  | b :: rest, doms =>
    match findBlock g b with
    | Option.none => Option.none
    | some bl =>
      let assertOk : Bool :=
        match bl.next.head? with
        | some nb =>
          match findBlock g nb with
          | some nbl =>
            match nbl.prev.head? with
            | some p => p == b
            | Option.none => false
          | Option.none => false
        | Option.none => true
      if assertOk then
        match followersOf bl with
        | some fs =>
          match walkFollowers g b fuel fs (domsSetdefault doms b) with
          | some doms2 => buildDoms g fuel rest doms2
          | Option.none => Option.none
        | Option.none => Option.none
      else Option.none

/-- `find_next()` (pyassem.py lines 228-236): the first remaining block
none of whose dominators is still remaining; the `assert 0` when no such
block exists is `Option.none`. -/
def findNextBlk (doms : List (Nat × List Nat)) (remaining : List Nat) :
    Option Nat :=
  remaining.find? (fun b =>
    ((domsGet doms b).filter (fun c => remaining.contains c)).isEmpty)

/-- The emission loop of `OrderBlocks` (pyassem.py lines 238-249): append
`b`, discard it from remaining; follow `b.next` when present; otherwise
append the exit block when `b` is neither the exit nor ends in an
unconditional transfer; stop when nothing remains, else continue with
`find_next()`. -/
def obLoop (g : Graph) (exitB : Nat) (doms : List (Nat × List Nat)) :
    Nat → List Nat → List Nat → Nat → Option (List Nat)
  | 0, _, _, _ => Option.none
  | fuel + 1, order, remaining, b =>
    let order2 := order ++ [b]
    let remaining2 := remaining.erase b
    match nextHead g b with
    | some nb => obLoop g exitB doms fuel order2 remaining2 nb
    | Option.none =>
      let order3 :=
        if b ≠ exitB ∧ blockHasUncond g b = false then order2 ++ [exitB]
        else order2
      if remaining2.isEmpty then some order3
      else
        match findNextBlk doms remaining2 with
        | some nb => obLoop g exitB doms fuel order3 remaining2 nb
        | Option.none => Option.none

/-- Embedding of `OrderBlocks(start_block, exit_block)` (pyassem.py lines
186-250). -/
def OrderBlocks (g : Graph) (startB exitB : Nat) (fuel : Nat) :
    Option (List Nat) :=
  match dfsGo g fuel [startB] [] with
  | Option.none => Option.none
  | some remaining =>
    match buildDoms g fuel remaining [] with
    | Option.none => Option.none
    | some doms => obLoop g exitB doms fuel [] remaining startB

/-- A graph on which `OrderBlocks` emits a block twice: the entry (bid 0)
jumps conditionally (absolute jump, so no domination) to block 2, and
block 2 falls through back to the entry, so the entry has a `prev`.  The
exit block has bid 1.  Constructible through the FlowGraph API via
`startBlock`/`nextBlock`/`emit`. -/
def cexGraph : Graph :=
  [{ bid := 0, label := "", insts := [.two "POP_JUMP_IF_TRUE" (.blk 2)],
     outEdges := [2], next := [], prev := [2] },
   { bid := 1, label := "exit", insts := [], outEdges := [], next := [],
     prev := [] },
   { bid := 2, label := "", insts := [], outEdges := [], next := [0],
     prev := [] }]

/-- CLAIM C2 counterexample: on `cexGraph` the emission order is
`[0, 1, 2, 0, 1]`: the reachable entry block 0 occurs at two different
positions (as does the exit block 1), refuting the exactly-once claim.
Block 0 is re-emitted when the loop follows the fall-through link of
block 2; exit is appended once as implicit fall-through of block 0 and
once after block 0 is re-emitted. -/
theorem orderBlocks_duplicate_cex :
    OrderBlocks cexGraph 0 1 10 = some [0, 1, 2, 0, 1] ∧
    dfsGo cexGraph 10 [0] [] = some [0, 2] ∧
    List.count 0 [0, 1, 2, 0, 1] = 2 ∧
    List.count 1 [0, 1, 2, 0, 1] = 2 := by
  refine ⟨by decide, by decide, by decide, by decide⟩

theorem obLoop_mem (g : Graph) (exitB : Nat) (doms : List (Nat × List Nat)) :
    ∀ (fuel : Nat) (order remaining : List Nat) (b : Nat)
      (res : List Nat),
      obLoop g exitB doms fuel order remaining b = some res →
      ∀ x, (x ∈ order ∨ x ∈ remaining ∨ x = b) → x ∈ res := by
  intro fuel
  induction fuel with
  | zero => intro order remaining b res h; cases h
  | succ fuel ih =>
    intro order remaining b res h x hx
    have hx2 : x ∈ order ++ [b] ∨ x ∈ remaining.erase b := by
      rcases hx with hx | hx | rfl
      · exact Or.inl (List.mem_append_left _ hx)
      · by_cases hxb : x = b
        · subst hxb; exact Or.inl (List.mem_append_right _ (by simp))
        · exact Or.inr ((List.mem_erase_of_ne hxb).mpr hx)
      · exact Or.inl (List.mem_append_right _ (by simp))
    unfold obLoop at h
    cases hnext : nextHead g b with
    | some nb =>
      rw [hnext] at h
      refine ih (order ++ [b]) (remaining.erase b) nb res h x ?_
      rcases hx2 with h1 | h1
      · exact Or.inl h1
      · exact Or.inr (Or.inl h1)
    | none =>
      rw [hnext] at h
      dsimp only at h
      have horder3 : ∀ y, y ∈ order ++ [b] →
          y ∈ (if b ≠ exitB ∧ blockHasUncond g b = false
               then (order ++ [b]) ++ [exitB] else order ++ [b]) := by
        intro y hy
        by_cases hc : b ≠ exitB ∧ blockHasUncond g b = false
        · rw [if_pos hc]; exact List.mem_append_left _ hy
        · rw [if_neg hc]; exact hy
      cases hemp : (remaining.erase b).isEmpty with
      | true =>
        rw [hemp] at h
        simp only [if_true] at h
        cases h
        rcases hx2 with h1 | h1
        · exact horder3 x h1
        · rw [List.isEmpty_iff] at hemp
          rw [hemp] at h1
          cases h1
      | false =>
        rw [hemp] at h
        simp only [Bool.false_eq_true, if_false] at h
        cases hfind : findNextBlk doms (remaining.erase b) with
        | none => rw [hfind] at h; cases h
        | some nb =>
          rw [hfind] at h
          refine ih _ (remaining.erase b) nb res h x ?_
          rcases hx2 with h1 | h1
          · exact Or.inl (horder3 x h1)
          · exact Or.inr (Or.inl h1)

/-- CLAIM C2 amended: whenever `OrderBlocks` returns, every block its
reachability scan collects from the entry (via out-edges and next links)
appears in the returned sequence at least once; a block can occur at two
different positions (the exit block appended as implicit fall-through
while still remaining, or any block that is the fall-through successor of
a block emitted after it, as the counterexample shows). -/
theorem orderBlocks_reachable_mem (g : Graph) (startB exitB fuel : Nat)
    (R order : List Nat)
    (hdfs : dfsGo g fuel [startB] [] = some R)
    (hord : OrderBlocks g startB exitB fuel = some order) :
    ∀ x ∈ R, x ∈ order := by
  intro x hx
  unfold OrderBlocks at hord
  rw [hdfs] at hord
  dsimp only at hord
  cases hdoms : buildDoms g fuel R [] with
  | none => rw [hdoms] at hord; cases hord
  | some doms =>
    rw [hdoms] at hord
    exact obLoop_mem g exitB doms fuel [] R startB order hord x
      (Or.inr (Or.inl hx))

/-- A two-block straight-line graph: entry 0, exit 1. -/
def linGraph : Graph :=
  [{ bid := 0, label := "", insts := [.two "LOAD_CONST" (.sym .none)],
     outEdges := [], next := [], prev := [] },
   { bid := 1, label := "exit", insts := [], outEdges := [], next := [],
     prev := [] }]

/-- CLAIM C2 witness: the amended membership property at the concrete
straight-line graph. -/
theorem orderBlocks_reachable_mem_w :
    OrderBlocks linGraph 0 1 10 = some [0, 1] ∧ (0 : Nat) ∈ [0, 1] :=
  ⟨by decide,
   orderBlocks_reachable_mem linGraph 0 1 10 [0] [0, 1] (by decide)
     (by decide) 0 (by decide)⟩
